import Mathlib

/-!
Verification of the kupferbootstrap package-build orchestrator core
(`src/packages/__init__.py` and `src/distro.py`) against its specification.

The Python code is shallowly embedded: Python `dict`s become association
lists (`List (key × value)`) whose insertion keeps the original slot of an
existing key, Python `set`s become duplicate-free lists in insertion order,
filesystem paths become a structured `FPath` type mirroring the distinct
`os.path.join` patterns of the code, and side-effecting operations become
explicit state-passing functions.  Equality of recipe records is structural
(`DecidableEq`), matching the fact that the program never constructs two
distinct recipe objects with identical fields for the same run.

String primitives (`replace`, `endswith`, `split`, `strip`) are implemented
over `List Char` so that concrete runs reduce inside the kernel; they
mirror the semantics of the Python string methods used by the source.
-/

namespace Kupfer

/-! ### Python string primitives over `List Char` -/

/-- Python `str.replace`: replace every non-overlapping occurrence of
`pat` (taken non-empty, as in the source) by `rep`, scanning left to
right.  The `skip` counter consumes the rest of a matched occurrence. -/
def replaceGo (pat rep : List Char) : Nat → List Char → List Char
  | _, [] => []
  | k + 1, _ :: cs => replaceGo pat rep k cs
  | 0, c :: cs =>
    if pat.isPrefixOf (c :: cs) then
      rep ++ replaceGo pat rep (pat.length - 1) cs
    else
      c :: replaceGo pat rep 0 cs

/-- Python `str.replace` over `List Char`. -/
def replaceL (pat rep s : List Char) : List Char :=
  replaceGo pat rep 0 s

/-- Python `str.endswith`. -/
def endsWithL (s suf : List Char) : Bool :=
  s.drop (s.length - suf.length) == suf

/-- Python `str.split(sep)` for a one-character separator. -/
def splitOnCharL (sep : Char) : List Char → List (List Char)
  | [] => [[]]
  | c :: cs =>
    match splitOnCharL sep cs with
    | [] => [[c]]
    | h :: t => if c = sep then [] :: h :: t else (c :: h) :: t

/-- Python `str.strip()`: remove leading and trailing whitespace. -/
def stripL (s : List Char) : List Char :=
  ((s.dropWhile Char.isWhitespace).reverse.dropWhile Char.isWhitespace).reverse

/-- Python `str.replace` lifted to `String`. -/
def pyReplace (s pat rep : String) : String :=
  ⟨replaceL pat.data rep.data s.data⟩

/-- Python `str.endswith` lifted to `String`. -/
def pyEndsWith (s suf : String) : Bool :=
  endsWithL s.data suf.data

/-- Python `str.split(sep)` (one-character separator) lifted to `String`. -/
def pySplitOn (s : String) (sep : Char) : List String :=
  (splitOnCharL sep s.data).map String.mk

/-- Python `str.strip()` lifted to `String`. -/
def pyStrip (s : String) : String :=
  ⟨stripL s.data⟩

/-- Python `os.path.basename`: the part of a slash-separated path after the last
slash. -/
def basename (s : String) : String :=
  ((pySplitOn s '/').getLast?).getD s

/-- Embedding of `strip_compression_extension` from
`src/packages/__init__.py`: for each `ext` in `zst, xz, gz, bz2`, if the
filename ends in `.pkg.tar.<ext>` drop the final `.<ext>`; otherwise return
the filename unchanged (the warning branch). -/
def strip_compression_extension (filename : String) : String :=
  if pyEndsWith filename ".pkg.tar.zst" then ⟨filename.data.dropLast.dropLast.dropLast.dropLast⟩
  else if pyEndsWith filename ".pkg.tar.xz" then ⟨filename.data.dropLast.dropLast.dropLast⟩
  else if pyEndsWith filename ".pkg.tar.gz" then ⟨filename.data.dropLast.dropLast.dropLast⟩
  else if pyEndsWith filename ".pkg.tar.bz2" then ⟨filename.data.dropLast.dropLast.dropLast.dropLast⟩
  else filename

/-- Embedding of `resolve_url` from `src/distro.py`.  The Python function
iterates the dict `{'$repo': repo_name, '$arch': config.runtime['arch']}` in
insertion order, replacing each placeholder.  Note that the body reads the
global `config.runtime['arch']` (passed here explicitly as `runtimeArch`)
and never uses its `arch` parameter. -/
def resolve_url (url_template : String) (repo_name : String) (arch : String)
    (runtimeArch : String) : String :=
  let _ := arch
  pyReplace (pyReplace url_template "$repo" repo_name) "$arch" runtimeArch

/-! ### Python dicts as association lists -/

/-- Lookup in a Python dict modelled as an association list. -/
def alookup {β : Type} (m : List (String × β)) (k : String) : Option β :=
  match m with
  | [] => none
  | (k', v) :: rest => if k' = k then some v else alookup rest k

/-- Insertion into a Python dict: an existing key keeps its slot and gets the
new value, a fresh key is appended (CPython insertion-order semantics). -/
def dictInsert {β : Type} (m : List (String × β)) (k : String) (v : β) :
    List (String × β) :=
  match m with
  | [] => [(k, v)]
  | (k', v') :: rest =>
    if k' = k then (k', v) :: rest else (k', v') :: dictInsert rest k v

/-- Python `dict.update(new)`: insert every entry of `new` in order. -/
def dictUpdate {β : Type} (m new : List (String × β)) : List (String × β) :=
  new.foldl (fun d kv => dictInsert d kv.1 kv.2) m

/-- Python `dict.values()` of an association list. -/
def dictValues {β : Type} (m : List (String × β)) : List β :=
  m.map Prod.snd

/-! ### The recipe record -/

/-- Modelled from the spec: the recipe record produced by the recipe parser
(class `Pkgbuild` of the `packages.pkgbuild` module, which is not under
`src/`).  Fields as listed in the spec's data model: `name`, `path`,
`repo`, `version`, `depends`, `provides`, `replaces`, `mode`.
`local_depends` is derived state not needed by the verified claims. -/
structure Pkgbuild where
  name : String
  path : String
  repo : String
  version : String
  depends : List String
  provides : List String
  replaces : List String
  mode : String
  deriving DecidableEq

/-- Modelled from the spec: `names(r) = {r.name} ∪ r.provides ∪ r.replaces`
(method `Pkgbuild.names()` of the missing `packages.pkgbuild` module). -/
def Pkgbuild.names (p : Pkgbuild) : List String :=
  p.name :: (p.provides ++ p.replaces)

/-- A recipe registry: the dict built by `discover_packages`. -/
abbrev Registry := List (String × Pkgbuild)

/-! ### distro.py: PackageInfo, desc parsing and Repo.scan -/

/-- Embedding of `PackageInfo` from `src/distro.py` (the `resolved_url`
field is irrelevant to the claims and omitted). -/
structure PackageInfo where
  name : String
  version : String
  filename : String
  deriving DecidableEq

/-- Elements of a Python list at even indices (`l[0::2]`). -/
def evens {α : Type} : List α → List α
  | [] => []
  | [x] => [x]
  | x :: _ :: rest => x :: evens rest

/-- Elements of a Python list at odd indices (`l[1::2]`). -/
def odds {α : Type} (l : List α) : List α :=
  evens (l.drop 1)

/-- Embedding of `PackageInfo.parse_desc` from `src/distro.py`: split the
desc file on `%`, strip each piece, drop empty pieces, pair even-index
pieces (keys) with odd-index pieces (values) into a dict, then read
`NAME`, `VERSION` and `FILENAME`.  A missing key raises `KeyError` in
Python; the embedding returns `Except.error` with the offending key
(`desc['NAME']` is evaluated first, then `VERSION`, then `FILENAME`). -/
def parse_desc (desc_str : String) : Except String PackageInfo :=
  let pruned := ((pySplitOn desc_str '%').map pyStrip).filter (fun l => l ≠ "")
  let desc := (List.zip (evens pruned) (odds pruned)).foldl
    (fun d kv => dictInsert d (pyStrip kv.1) (pyStrip kv.2))
    ([] : List (String × String))
  match alookup desc "NAME" with
  | none => .error "NAME"
  | some n =>
    match alookup desc "VERSION" with
    | none => .error "VERSION"
    | some v =>
      match alookup desc "FILENAME" with
      | none => .error "FILENAME"
      | some f => .ok ⟨n, v, f⟩

/-- Embedding of the parsing loop of `Repo.scan` from `src/distro.py`:
for each archive member whose basename is `desc`, parse it and store the
result under `pkg.name` in `self.packages`.  `Repo.scan` installs no
exception handler, so a `KeyError` from `parse_desc` propagates and aborts
the scan. -/
def scanDescs (descs : List String) (packages : List (String × PackageInfo)) :
    Except String (List (String × PackageInfo)) :=
  match descs with
  | [] => .ok packages
  | d :: rest =>
    match parse_desc d with
    | .error k => .error k
    | .ok pkg => scanDescs rest (dictInsert packages pkg.name pkg)

/-! ### distro.py: RepoInfo / Repo construction and the shared class dict

In `src/distro.py`, `class RepoInfo` declares `options: dict[str, str] = {}`.
That expression is evaluated once, at class-definition time, producing a
single dict object stored on the class.  `RepoInfo.__init__` runs
`self.options.update(options)`: the attribute read `self.options` finds no
instance attribute and falls through to the class attribute, so the update
mutates the one class-level dict shared by every `RepoInfo` instance.
`Repo.__init__` instead assigns `self.options = deepcopy(options)`, which
creates a per-instance attribute.  The heap model below makes exactly this
sharing explicit. -/

/-- A `RepoInfo` instance: only `url_template` is instance state; its
`options` attribute resolves to the class-level dict held in `PyHeap`. -/
structure RepoInfoObj where
  url_template : String
  deriving DecidableEq

/-- The mutable Python heap relevant to `RepoInfo`: the single class-level
`options` dict. -/
structure PyHeap where
  repoInfoClassOptions : List (String × String)
  deriving DecidableEq

/-- Embedding of `RepoInfo.__init__`: store `url_template` on the instance
and run `self.options.update(options)`, which mutates the shared class
dict. -/
def RepoInfo_init (h : PyHeap) (url_template : String)
    (options : List (String × String)) : RepoInfoObj × PyHeap :=
  (⟨url_template⟩, ⟨dictUpdate h.repoInfoClassOptions options⟩)

/-- Attribute read `instance.options` on a `RepoInfo`: no instance
attribute exists, so it yields the class-level dict. -/
def RepoInfoObj.optionsOf (_ : RepoInfoObj) (h : PyHeap) :
    List (String × String) :=
  h.repoInfoClassOptions

/-- A `Repo` instance from `src/distro.py`: `Repo.__init__` assigns
`self.options = deepcopy(options)`, giving the instance its own copy. -/
structure RepoObj where
  name : String
  url_template : String
  arch : String
  options : List (String × String)
  deriving DecidableEq

/-- Embedding of `Repo.__init__` (without the optional scan): it writes
only instance attributes, leaving the heap unchanged; `options` is
deep-copied. -/
def Repo_init (h : PyHeap) (name url_template arch : String)
    (options : List (String × String)) : RepoObj × PyHeap :=
  (⟨name, url_template, arch, options⟩, h)

/-- The URL that `Repo.scan` resolves:
`resolve_url(self.url_template, repo_name=self.name, arch=self.arch)`,
where `resolve_url` reads `config.runtime['arch']` (the `runtimeArch`
argument here). -/
def RepoObj.scanResolvedUrl (r : RepoObj) (runtimeArch : String) : String :=
  resolve_url r.url_template r.name r.arch runtimeArch

example : resolve_url "https://h/$arch/$repo" "main" "aarch64" "x86_64" =
    "https://h/x86_64/main" := by decide

example : strip_compression_extension "a-1.0-any.pkg.tar.xz" = "a-1.0-any.pkg.tar" := by
  decide

example : basename "/foo/bar/x.pkg.tar.zst" = "x.pkg.tar.zst" := by decide

example : pyStrip "  NAME\n " = "NAME" := by decide

example : parse_desc "%NAME%\nfoo\n\n%VERSION%\n1.0-1\n\n%FILENAME%\nfoo-1.0-1-any.pkg.tar.xz\n" =
    .ok ⟨"foo", "1.0-1", "foo-1.0-1-any.pkg.tar.xz"⟩ := by rfl

example : parse_desc "%NAME%\nfoo\n\n%VERSION%\n1.0-1\n" = .error "FILENAME" := by rfl

/-! ### Python sets as insertion-ordered duplicate-free lists -/

/-- Python `set.add`: append if not already a member. -/
def listInsert {α : Type} [DecidableEq α] (xs : List α) (x : α) : List α :=
  if x ∈ xs then xs else xs ++ [x]

/-- Python set equality: the same members, order ignored. -/
def eqAsSet {α : Type} [DecidableEq α] (xs ys : List α) : Bool :=
  xs.all (fun x => decide (x ∈ ys)) && ys.all (fun y => decide (y ∈ xs))

/-! ### packages/__init__.py: discover_packages and filter_packages -/

/-- Embedding of the dictionary-building loop of `discover_packages`
(`src/packages/__init__.py`, lines 123–128): for each parsed package, in
order, insert it under `package.name` and under each entry of
`package.replaces`.  A colliding key is overwritten (with a warning).
Entries of `provides` are not inserted. -/
def buildPackageDict (results : List Pkgbuild) : Registry :=
  results.foldl
    (fun packages p =>
      (p.name :: p.replaces).foldl (fun pkgs n => dictInsert pkgs n p) packages)
    []

/-- Embedding of `filter_packages` from `src/packages/__init__.py`: if the
token `all` occurs in `paths` return every dict value; otherwise keep, in
`repo.values()` order, each value whose `path` (when `use_paths`) or
`name` (when `use_names`) occurs in `paths`.  With
`allow_empty_results = false` an empty result raises. -/
def filter_packages (repo : Registry) (paths : List String)
    (allow_empty_results use_paths use_names : Bool) :
    Except String (List Pkgbuild) :=
  if "all" ∈ paths then .ok (dictValues repo)
  else
    let result := (dictValues repo).filter (fun pkg =>
      (use_paths && decide (pkg.path ∈ paths)) ||
      (use_names && decide (pkg.name ∈ paths)))
    if !allow_empty_results && result.isEmpty then
      .error "No packages matched by paths"
    else .ok result

/-! ### packages/__init__.py: generate_dependency_chain -/

/-- Errors of the dependency-chain embedding: the two explicit aborts of
`generate_dependency_chain`, Python's recursion limit for the initial
depth-first traversal (and for `get_dependants`), and exhaustion of the
step budget of the embedded `while` loop (the Python loop would still be
running). -/
inductive ChainErr where
  | recursionLimit
  | depthLimit
  | cycleDetected
  | loopLimit
  deriving DecidableEq

/-- State of the visited-bookkeeping of `generate_dependency_chain`:
the sets `visited` and `visited_names` plus `dep_levels[0]` being filled
by the initialisation loop. -/
structure VisitSt where
  visited : List Pkgbuild
  visitedNames : List String
  level0 : List Pkgbuild
  deriving DecidableEq

/-- Embedding of the local helper `visit`: `visited.add(package)` and
`visited_names.update(package.names())`. -/
def visitMark (p : Pkgbuild) (st : VisitSt) : VisitSt :=
  { st with
    visited := listInsert st.visited p,
    visitedNames := p.names.foldl listInsert st.visitedNames }

/-- Embedding of `get_recursive_dependencies` (the generator consumed by
the initialisation loop of `generate_dependency_chain`): walk the listed
dependency names in order; a name already in `visited_names` is skipped,
an unresolvable name is skipped, and a name resolving in the registry to
`q` marks `q` visited, adds it to `dep_levels[0]`, and recurses into
`q.depends` before the remaining names.  The fuel models Python's
recursion limit. -/
def visitDeps (repo : Registry) : Nat → List String → VisitSt → Except ChainErr VisitSt
  | 0, _, _ => .error .recursionLimit
  | _ + 1, [], st => .ok st
  | fuel + 1, d :: ds, st =>
    if d ∈ st.visitedNames then visitDeps repo fuel ds st
    else
      match alookup repo d with
      | none => visitDeps repo fuel ds st
      | some q =>
        match visitDeps repo fuel q.depends
            { visitMark q st with
              level0 := listInsert (visitMark q st).level0 q } with
        | .error e => .error e
        | .ok st3 => visitDeps repo fuel ds st3

/-- Embedding of the initialisation loop of `generate_dependency_chain`:
for each requested package, mark it visited, add it to `dep_levels[0]`,
and add all its recursive dependencies to `dep_levels[0]`. -/
def initPhase (repo : Registry) (fuel : Nat) :
    List Pkgbuild → VisitSt → Except ChainErr VisitSt
  | [], st => .ok st
  | p :: ps, st =>
    match visitDeps repo fuel p.depends
        { visitMark p st with
          level0 := listInsert (visitMark p st).level0 p } with
    | .error e => .error e
    | .ok st3 => initPhase repo fuel ps st3

/-- The move condition of the scanning loop of
`generate_dependency_chain`: some other package of the level copy has a
dependency name contained in `pkg.names()`. -/
def movedCond (levelCopy : List Pkgbuild) (pkg : Pkgbuild) : Bool :=
  levelCopy.any (fun other =>
    (other != pkg) && other.depends.any (fun d => decide (d ∈ pkg.names)))

/-- State of one scanning pass over `dep_levels[level]`:
`cur = dep_levels[level]`, `nxt = dep_levels[level+1]`, the visited
bookkeeping, and the `modified` flag. -/
structure PassSt where
  cur : List Pkgbuild
  nxt : List Pkgbuild
  visited : List Pkgbuild
  visitedNames : List String
  modified : Bool
  deriving DecidableEq

/-- Embedding of the dependency-adding inner loop of the scan (step 2):
for each dependency name of `pkg`, skip it if visited or unresolvable;
otherwise add the resolved package to the current level, mark it visited,
and set `modified`. -/
def addDeps (repo : Registry) (deps : List String) (st : PassSt) : PassSt :=
  deps.foldl
    (fun st d =>
      if d ∈ st.visitedNames then st
      else
        match alookup repo d with
        | none => st
        | some dp =>
          { st with
            cur := listInsert st.cur dp,
            visited := listInsert st.visited dp,
            visitedNames := dp.names.foldl listInsert st.visitedNames,
            modified := true })
    st

/-- Embedding of the body of `for pkg in level_copy`: skip a package no
longer in the level; move it one level up when `movedCond` holds; then run
the dependency-adding loop for it. -/
def passStep (repo : Registry) (levelCopy : List Pkgbuild) (st : PassSt)
    (pkg : Pkgbuild) : PassSt :=
  if pkg ∉ st.cur then st
  else
    let st1 :=
      if movedCond levelCopy pkg then
        { st with
          cur := st.cur.erase pkg,
          nxt := listInsert st.nxt pkg,
          modified := true }
      else st
    addDeps repo pkg.depends st1

/-- One full pass of the scanning loop over a copy of the current level. -/
def runPass (repo : Registry) (cur nxt : List Pkgbuild)
    (visited : List Pkgbuild) (visitedNames : List String) : PassSt :=
  cur.foldl (passStep repo cur) ⟨cur, nxt, visited, visitedNames, false⟩

/-- State of the `while dep_levels[level]` loop of
`generate_dependency_chain`: `below` holds the frozen levels
`dep_levels[0..level-1]`, `cur = dep_levels[level]`,
`nxt = dep_levels[level+1]` (so `level = below.length`), together with the
visited bookkeeping and the cycle-protection registers `_last_level` and
`repeat_count`. -/
structure LoopSt where
  below : List (List Pkgbuild)
  cur : List Pkgbuild
  nxt : List Pkgbuild
  visited : List Pkgbuild
  visitedNames : List String
  lastLevel : Option (List Pkgbuild)
  repeatCount : Nat
  deriving DecidableEq

/-- The value returned when the `while` loop of
`generate_dependency_chain` exits: the level list reversed (deepest
dependencies first) with empty levels dropped. -/
def finalizeLevels (st : LoopSt) : List (List Pkgbuild) :=
  ((st.below ++ [st.cur, st.nxt]).reverse).filter (fun lvl => !lvl.isEmpty)

/-- One iteration of the `while dep_levels[level]` loop of
`generate_dependency_chain` (taken when the current level is non-empty
and the depth check has passed): run a pass over a copy of the current
level, update the cycle-protection registers `_last_level` and
`repeat_count` (raising after more than 10 consecutive sightings of
unchanged level content), and, if the pass did not modify anything,
advance `level` and append a fresh empty level. -/
def chainIter (repo : Registry) (st : LoopSt) : Except ChainErr LoopSt :=
  let p := runPass repo st.cur st.nxt st.visited st.visitedNames
  let repeatCount :=
    match st.lastLevel with
    | some last => if eqAsSet last p.cur then st.repeatCount + 1 else 0
    | none => 0
  if repeatCount > 10 then .error .cycleDetected
  else if p.modified then
    .ok ⟨st.below, p.cur, p.nxt, p.visited, p.visitedNames, some p.cur, repeatCount⟩
  else
    .ok ⟨st.below ++ [p.cur], p.nxt, [], p.visited, p.visitedNames, some p.cur,
      repeatCount⟩

/-- Embedding of the `while dep_levels[level]` loop of
`generate_dependency_chain`.  The loop exits (returning the reversed,
empty-pruned level list) when the current level is empty; it raises when
`level > 100` (with `level = below.length`); otherwise it performs one
`chainIter` iteration. -/
def chainLoop (repo : Registry) : Nat → LoopSt → Except ChainErr (List (List Pkgbuild))
  | 0, _ => .error .loopLimit
  | fuel + 1, st =>
    if st.cur.isEmpty then .ok (finalizeLevels st)
    else if st.below.length > 100 then .error .depthLimit
    else
      match chainIter repo st with
      | .error e => .error e
      | .ok st' => chainLoop repo fuel st'

/-- Embedding of `generate_dependency_chain` from
`src/packages/__init__.py`: initialise `dep_levels = [S, ∅]` with `S` the
requested packages plus their recursive registry-resolvable dependencies,
then run the scanning loop.  `dfsFuel` bounds the initial recursion
(Python's recursion limit), `loopFuel` bounds the number of `while`
iterations of the embedding. -/
def generate_dependency_chain (repo : Registry) (to_build : List Pkgbuild)
    (dfsFuel loopFuel : Nat) : Except ChainErr (List (List Pkgbuild)) :=
  match initPhase repo dfsFuel to_build ⟨[], [], []⟩ with
  | .error e => .error e
  | .ok stInit =>
    chainLoop repo loopFuel
      ⟨[], stInit.level0, [], stInit.visited, stInit.visitedNames, none, 0⟩

/-! ### packages/__init__.py: get_dependants and get_unbuilt_package_levels -/

/-- One step of `get_dependants`: `names = {pkg.name for pkg in packages}`
(canonical names only) and
`to_add = {pkg ∈ repo.values() | names ∩ pkg.depends ≠ ∅}`. -/
def directDependants (repo : Registry) (names : List String) : List Pkgbuild :=
  (dictValues repo).foldl
    (fun toAdd pkg =>
      if pkg.depends.any (fun d => decide (d ∈ names)) then listInsert toAdd pkg
      else toAdd)
    []

/-- Embedding of `get_dependants` from `src/packages/__init__.py` (with
its default `recursive = True`): collect the packages whose `depends`
meets the set of the given packages' `name` fields, and, while that set is
non-empty, union in the dependants of that set recursively.  The fuel
models Python's recursion limit (the code has no other cycle guard). -/
def get_dependants (repo : Registry) : Nat → List Pkgbuild → Except ChainErr (List Pkgbuild)
  | 0, _ => .error .recursionLimit
  | fuel + 1, packages =>
    let names := packages.map (fun pkg => pkg.name)
    let toAdd := directDependants repo names
    if toAdd.isEmpty then .ok toAdd
    else
      match get_dependants repo fuel toAdd with
      | .error e => .error e
      | .ok more => .ok (more.foldl listInsert toAdd)

/-- Embedding of `get_unbuilt_package_levels` from
`src/packages/__init__.py`.  The call
`check_package_version_built(package, arch, try_download)` performs chroot
and network work; it is abstracted by the oracle `isBuilt` (the claims
about this function concern only which packages are kept).  The function
extends the requested set with `get_dependants` when
`rebuild_dependants`, solves with `generate_dependency_chain`, and keeps
in each level the packages that are forced, dependants, or unbuilt,
dropping empty levels. -/
def get_unbuilt_package_levels (repo : Registry) (packages : List Pkgbuild)
    (isBuilt : Pkgbuild → Bool) (force rebuild_dependants : Bool)
    (depFuel dfsFuel loopFuel : Nat) :
    Except ChainErr (List (List Pkgbuild)) :=
  match (if rebuild_dependants then get_dependants repo depFuel packages
         else .ok []) with
  | .error e => .error e
  | .ok dependants =>
    match generate_dependency_chain repo
        (dependants.foldl listInsert (packages.foldl listInsert []))
        dfsFuel loopFuel with
    | .error e => .error e
    | .ok package_levels =>
      .ok (package_levels.foldl
        (fun build_levels level_packages =>
          let level := level_packages.filter (fun package =>
            (force && decide (package ∈ packages)) ||
            (rebuild_dependants && decide (package ∈ dependants)) ||
            !isBuilt package)
          if level.isEmpty then build_levels else build_levels ++ [level])
        [])

/-! ### packages/__init__.py: the repository filesystem layer

Paths produced by the code come from three `os.path.join` patterns:
`<packages root>/<arch>/<repo>/<file>` (targets of publication),
`<pkgbuilds root>/<package.path>/<file>` (freshly built artifacts), and
`<pacman cache>/<arch>/<file>` (the download cache).  They are modelled
by a structured type, which keeps the three families distinct exactly as
the distinct root directories do. -/

/-- A filesystem path of the publication layer. -/
inductive FPath where
  | pkgFile (arch : String) (repo : String) (file : String)
  | pkgbuildFile (path : String) (file : String)
  | cacheFile (arch : String) (file : String)
  deriving DecidableEq

/-- Python `os.path.basename` of a modelled path. -/
def FPath.base : FPath → String
  | .pkgFile _ _ f => f
  | .pkgbuildFile _ f => f
  | .cacheFile _ f => f

/-- An entry of a repository database (the effect of
`repo-add --remove <repo>.db.tar.xz <file>` for arch `arch`). -/
structure DbEntry where
  arch : String
  repo : String
  file : String
  deriving DecidableEq

/-- The filesystem state visible to the publication layer: the set of
existing files and the repository-database entries.  The `.db`/`.files`
index normalisation of `add_file_to_repo` is abstracted into `db`. -/
structure RepoState where
  files : List FPath
  db : List DbEntry
  deriving DecidableEq

/-- Embedding of `add_file_to_repo` from `src/packages/__init__.py`:
if the file is not already the target path, copy it into the repo
directory and unlink the source; remove a same-named file from the pacman
cache; then run `repo-add --remove`, recorded as a database entry (the
subprocess is modelled as succeeding; a failure raises and aborts). -/
def add_file_to_repo (st : RepoState) (file_path : FPath)
    (repo_name arch : String) : RepoState :=
  let file_name := file_path.base
  let target_file := FPath.pkgFile arch repo_name file_name
  let files :=
    if file_path ≠ target_file then
      listInsert (st.files.erase file_path) target_file
    else st.files
  let files := files.erase (FPath.cacheFile arch file_name)
  { files := files, db := listInsert st.db ⟨arch, repo_name, file_name⟩ }

/-- The body of the any-arch fan-out loop of `add_package_to_repo`
(`for repo_arch in ARCHES`): skip the build arch; otherwise
`shutil.copy` the published file to the other arch's repo directory and
insert it into that arch's database. -/
def fanoutOne (package : Pkgbuild) (arch file : String) (st : RepoState)
    (repo_arch : String) : RepoState :=
  if repo_arch = arch then st
  else
    let copy_target := FPath.pkgFile repo_arch package.repo file
    let st := { st with files := listInsert st.files copy_target }
    add_file_to_repo st copy_target package.repo repo_arch

/-- The body of the directory-listing loop of `add_package_to_repo` for
one file of the pkgbuild directory. -/
def publishOne (arches : List String) (package : Pkgbuild) (arch : String)
    (acc : RepoState × List FPath) (file : String) : RepoState × List FPath :=
  let stripped_name := strip_compression_extension file
  if !(pyEndsWith stripped_name ".pkg.tar") then acc
  else
    let repo_file := FPath.pkgFile arch package.repo file
    let files := acc.2 ++ [repo_file]
    let st := add_file_to_repo acc.1 (FPath.pkgbuildFile package.path file)
      package.repo arch
    if pyEndsWith stripped_name "any.pkg.tar" then
      (arches.foldl (fanoutOne package arch file) st, files)
    else (st, files)

/-- Embedding of `add_package_to_repo` from `src/packages/__init__.py`.
`dirListing` is `os.listdir` of the package's pkgbuild directory and
`arches` is `constants.ARCHES`.  For each artifact file (stripped name
ending `.pkg.tar`): record the repo path in the returned list, publish the
artifact into the build arch's repo, and, when the stripped name ends in
`any.pkg.tar`, copy the published file to every other arch's same repo and
publish it there too. -/
def add_package_to_repo (arches : List String) (st : RepoState)
    (package : Pkgbuild) (arch : String) (dirListing : List String) :
    RepoState × List FPath :=
  dirListing.foldl (publishOne arches package arch) (st, [])

/-! ### packages/__init__.py: check_package_version_built -/

/-- Embedding of the any-arch search loop of
`check_package_version_built`: walk `ARCHES` in order, skip the build
arch, and at the first other arch whose repo holds the file, clear
`missing`, copy the file to the build arch's repo, publish it there, and
stop (the loop `break`s). -/
def anyArchSearch (repoName arch bn : String) (target : FPath) :
    List String → RepoState → Bool → RepoState × Bool
  | [], st, missing => (st, missing)
  | repo_arch :: rest, st, missing =>
    if repo_arch = arch then anyArchSearch repoName arch bn target rest st missing
    else
      let other := FPath.pkgFile repo_arch repoName bn
      if other ∈ st.files then
        let st := { st with files := listInsert st.files target }
        (add_file_to_repo st target repoName arch, false)
      else anyArchSearch repoName arch bn target rest st missing

/-- Embedding of the body of the line loop of
`check_package_version_built` for one line of the `--packagelist`
output. -/
def check_line (arches : List String) (repoName arch : String)
    (try_download : Bool) (downloadOk : String → Bool)
    (acc : RepoState × Bool) (line : String) : RepoState × Bool :=
  if line = "" then acc
  else
    let (rs, missing) := acc
    let bn := basename line
    let file := FPath.pkgFile arch repoName bn
    let strippedBase := strip_compression_extension bn
    if !(pyEndsWith strippedBase ".pkg.tar") then (rs, missing)
    else
      let (rs, missing) :=
        if file ∈ rs.files then
          (add_file_to_repo rs file repoName arch, false)
        else if try_download && downloadOk bn then
          let rs := { rs with files := listInsert rs.files file }
          (add_file_to_repo rs file repoName arch, false)
        else (rs, missing)
      if pyEndsWith strippedBase "any.pkg.tar" then
        let target := FPath.pkgFile arch repoName bn
        let (rs, missing) :=
          if target ∈ rs.files then (rs, false)
          else anyArchSearch repoName arch bn target arches rs missing
        if target ∈ rs.files then
          (arches.foldl
            (fun rs repo_arch =>
              if repo_arch = arch then rs
              else
                let copy_target := FPath.pkgFile repo_arch repoName bn
                if copy_target ∈ rs.files then rs
                else
                  add_file_to_repo
                    { rs with files := listInsert rs.files copy_target }
                    copy_target repoName repo_arch)
            rs, missing)
        else (rs, missing)
      else (rs, missing)

/-- Embedding of `check_package_version_built` from
`src/packages/__init__.py`.  The `makepkg --packagelist` subprocess run in
the native chroot is abstracted by its output lines `packageList`;
`try_download_package` is abstracted by the oracle `downloadOk` (a
successful download creates the destination file).  The flag `missing` is
initialised once, before the loop, and the function returns
`not missing`. -/
def check_package_version_built (arches : List String) (st : RepoState)
    (package : Pkgbuild) (arch : String) (try_download : Bool)
    (downloadOk : String → Bool) (packageList : List String) :
    RepoState × Bool :=
  let (rs, missing) := packageList.foldl
    (check_line arches package.repo arch try_download downloadOk) (st, true)
  (rs, !missing)

/-! ### Generic lemmas about the set and dict embeddings -/

theorem mem_listInsert {α : Type} [DecidableEq α] (l : List α) (x y : α) :
    x ∈ listInsert l y ↔ x ∈ l ∨ x = y := by
  unfold listInsert
  by_cases h : y ∈ l
  · simp only [if_pos h]
    constructor
    · exact fun hx => Or.inl hx
    · rintro (hx | rfl)
      · exact hx
      · exact h
  · simp [if_neg h, List.mem_append]

theorem self_mem_listInsert {α : Type} [DecidableEq α] (l : List α) (y : α) :
    y ∈ listInsert l y :=
  (mem_listInsert l y y).2 (Or.inr rfl)

theorem mem_listInsert_of_mem {α : Type} [DecidableEq α] (l : List α) (x y : α)
    (h : x ∈ l) : x ∈ listInsert l y :=
  (mem_listInsert l x y).2 (Or.inl h)

theorem listInsert_nodup {α : Type} [DecidableEq α] (l : List α) (y : α)
    (h : l.Nodup) : (listInsert l y).Nodup := by
  unfold listInsert
  by_cases hy : y ∈ l
  · simpa [if_pos hy]
  · rw [if_neg hy, List.nodup_append]
    refine ⟨h, List.nodup_singleton y, ?_⟩
    intro a ha hay
    simp only [List.mem_singleton] at hay
    exact hy (hay ▸ ha)

theorem mem_foldl_listInsert {α : Type} [DecidableEq α] (l : List α) :
    ∀ (acc : List α) (x : α), x ∈ l.foldl listInsert acc ↔ x ∈ acc ∨ x ∈ l := by
  induction l with
  | nil => simp
  | cons a as ih =>
    intro acc x
    simp only [List.foldl_cons]
    rw [ih (listInsert acc a) x, mem_listInsert]
    constructor
    · rintro ((hx | rfl) | hx)
      · exact Or.inl hx
      · exact Or.inr (List.mem_cons_self _ _)
      · exact Or.inr (List.mem_cons_of_mem _ hx)
    · rintro (hx | hx)
      · exact Or.inl (Or.inl hx)
      · rcases List.mem_cons.1 hx with rfl | hx
        · exact Or.inl (Or.inr rfl)
        · exact Or.inr hx

theorem alookup_dictInsert {β : Type} (m : List (String × β)) (k k' : String) (v : β) :
    alookup (dictInsert m k v) k' = if k = k' then some v else alookup m k' := by
  induction m with
  | nil => simp [dictInsert, alookup]
  | cons e rest ih =>
    obtain ⟨ek, ev⟩ := e
    by_cases hek : ek = k
    · subst hek
      simp only [dictInsert, if_pos rfl, alookup]
      by_cases hkk : ek = k'
      · simp [if_pos hkk, hkk]
      · simp [if_neg hkk, hkk]
    · simp only [dictInsert, if_neg hek, alookup]
      by_cases hkk : ek = k'
      · subst hkk
        have : ¬ k = ek := fun h => hek h.symm
        simp [this]
      · simp [if_neg hkk, ih]

theorem alookup_mem {β : Type} (m : List (String × β)) (k : String) (v : β)
    (h : alookup m k = some v) : (k, v) ∈ m := by
  induction m with
  | nil => simp [alookup] at h
  | cons e rest ih =>
    obtain ⟨ek, ev⟩ := e
    by_cases hek : ek = k
    · subst hek
      have h' : (if ek = ek then some ev else alookup rest ek) = some v := h
      rw [if_pos rfl] at h'
      injection h' with h2
      subst h2
      exact List.mem_cons_self _ _
    · have h' : (if ek = k then some ev else alookup rest k) = some v := h
      rw [if_neg hek] at h'
      exact List.mem_cons_of_mem _ (ih h')

/-! ### Claim theorems: distro.py -/

/-- C6: counterexample.  `resolve_url` is claimed to replace `$arch` with
the target arch passed for the scan; on the concrete template
`https://mirror/$arch/$repo`, repo `main`, scan arch `aarch64` and
runtime (host) arch `x86_64`, the code substitutes `x86_64` — the global
`config.runtime['arch']` — and not the `aarch64` that was passed, both in
`resolve_url` itself and when `Repo.scan` resolves the URL of a repo
constructed for arch `aarch64`. -/
theorem resolve_url_ignores_scan_arch :
    resolve_url "https://mirror/$arch/$repo" "main" "aarch64" "x86_64" =
      "https://mirror/x86_64/main" ∧
    resolve_url "https://mirror/$arch/$repo" "main" "aarch64" "x86_64" ≠
      "https://mirror/aarch64/main" ∧
    RepoObj.scanResolvedUrl ⟨"main", "https://mirror/$arch/$repo", "aarch64", []⟩
      "x86_64" = "https://mirror/x86_64/main" := by
  refine ⟨by decide, by decide, by decide⟩

/-- C10: evidence for the shared-options bug.  Constructing a first
`RepoInfo` with empty options and then a second one with
`{'SigLevel': 'Never'}` mutates the single class-level dict, so the first
instance's `options` changes from `[]` to `[('SigLevel', 'Never')]`;
constructing a `Repo` (which deep-copies) leaves the heap unchanged. -/
theorem repoinfo_options_shared_mutation :
    (((RepoInfo_init ⟨[]⟩ "u1" []).1).optionsOf ((RepoInfo_init ⟨[]⟩ "u1" []).2)) = [] ∧
    (((RepoInfo_init ⟨[]⟩ "u1" []).1).optionsOf
      ((RepoInfo_init ((RepoInfo_init ⟨[]⟩ "u1" []).2) "u2" [("SigLevel", "Never")]).2)) =
      [("SigLevel", "Never")] ∧
    (((RepoInfo_init ⟨[]⟩ "u1" []).1).optionsOf
        ((RepoInfo_init ((RepoInfo_init ⟨[]⟩ "u1" []).2) "u2" [("SigLevel", "Never")]).2)) ≠
      (((RepoInfo_init ⟨[]⟩ "u1" []).1).optionsOf ((RepoInfo_init ⟨[]⟩ "u1" []).2)) ∧
    (Repo_init ((RepoInfo_init ⟨[]⟩ "u1" []).2) "main" "u3" "aarch64"
        [("SigLevel", "Never")]).2 = (RepoInfo_init ⟨[]⟩ "u1" []).2 := by
  refine ⟨by decide, by decide, by decide, by decide⟩

/-- A desc file missing its `%FILENAME%` section (used as the malformed
entry of C7's scenarios). -/
def badDesc : String := "%NAME%\nbroken\n\n%VERSION%\n1.0-1\n"

/-- A well-formed desc file (used by C7's scenarios). -/
def goodDesc : String :=
  "%NAME%\nfoo\n\n%VERSION%\n1.0-1\n\n%FILENAME%\nfoo-1.0-1-any.pkg.tar.xz\n"

/-- C7: counterexample.  The claim says a malformed desc entry is skipped
with a warning and scanning continues with the remaining entries.  On the
concrete archive contents `[badDesc, goodDesc]` the scan instead raises
the `KeyError` for `FILENAME` coming out of `parse_desc`: the result is an
error and the well-formed entry after the malformed one is never
registered, even though it parses fine on its own. -/
theorem scan_does_not_skip_malformed :
    scanDescs [badDesc, goodDesc] [] = .error "FILENAME" ∧
    parse_desc goodDesc = .ok ⟨"foo", "1.0-1", "foo-1.0-1-any.pkg.tar.xz"⟩ := by
  exact ⟨rfl, rfl⟩

/-- C7 (amended): a desc entry from which `NAME`, `VERSION` and
`FILENAME` cannot all be recovered makes `parse_desc` raise a `KeyError`,
which propagates out of `Repo.scan`'s parsing loop: whenever any scanned
entry is malformed, the scan does not return a package map. -/
theorem scan_aborts_on_malformed :
    ∀ (descs : List String) (acc : List (String × PackageInfo)) (bad : String)
      (e : String), bad ∈ descs → parse_desc bad = .error e →
      ∀ res, scanDescs descs acc ≠ .ok res := by
  intro descs
  induction descs with
  | nil => intro acc bad e hmem; simp at hmem
  | cons d rest ih =>
    intro acc bad e hmem hbad res
    rcases List.mem_cons.1 hmem with rfl | hmem'
    · simp [scanDescs, hbad]
    · cases hp : parse_desc d with
      | error k => simp [scanDescs, hp]
      | ok pkg =>
        simp only [scanDescs, hp]
        exact ih _ bad e hmem' hbad res

/-- C7 witness: the amended statement applied to the concrete archive
`[goodDesc, badDesc]`. -/
theorem scan_aborts_on_malformed_witness :
    badDesc ∈ [goodDesc, badDesc] ∧ parse_desc badDesc = .error "FILENAME" ∧
      ∀ res, scanDescs [goodDesc, badDesc] [] ≠ .ok res :=
  ⟨by decide, rfl, scan_aborts_on_malformed [goodDesc, badDesc] [] badDesc
    "FILENAME" (by decide) rfl⟩

/-! ### Claim theorems: registry construction and dependants -/

/-- A concrete recipe for the spec's test scenarios. -/
def mkPkg (name : String) (depends provides replaces : List String) : Pkgbuild :=
  ⟨name, "main/" ++ name, "main", "1.0-1", depends, provides, replaces, "host"⟩

/-- Recipe `a` of scenario S2: depends on the alias `foo`. -/
def provA : Pkgbuild := mkPkg "a" ["foo"] [] []

/-- Recipe `b` of scenario S2: provides the alias `foo`. -/
def provB : Pkgbuild := mkPkg "b" [] ["foo"] []

/-- C4: counterexample.  `discover_packages` inserts a recipe only under
its `name` and its `replaces` entries, not under `provides`: in the
registry built from S2's recipes `a (deps: foo)` and
`b (provides: foo)`, the key `foo` is absent although `foo ∈ names(b)`,
and the dependency chain for `{a}` is `[[a]]` — not the `[[b],[a]]` the
alias closure would give. -/
theorem discover_packages_no_provides_keys :
    alookup (buildPackageDict [provA, provB]) "foo" = none ∧
    "foo" ∈ provB.names ∧
    generate_dependency_chain (buildPackageDict [provA, provB]) [provA] 30 30 =
      .ok [[provA]] := by
  refine ⟨rfl, by decide, rfl⟩

/-- Stated from the amended claim: the last recipe in parse order that
claims key `n` via its canonical name or one of its `replaces` entries. -/
def lastClaimant (results : List Pkgbuild) (n : String) : Option Pkgbuild :=
  match results with
  | [] => none
  | p :: rest =>
    match lastClaimant rest n with
    | some q => some q
    | none => if n ∈ p.name :: p.replaces then some p else none

theorem alookup_keysFold (p : Pkgbuild) (n : String) :
    ∀ (keys : List String) (acc : Registry),
      alookup (keys.foldl (fun m k => dictInsert m k p) acc) n =
        if n ∈ keys then some p else alookup acc n := by
  intro keys
  induction keys with
  | nil => simp
  | cons k ks ih =>
    intro acc
    simp only [List.foldl_cons]
    rw [ih]
    by_cases hn : n ∈ ks
    · simp [hn, List.mem_cons]
    · rw [if_neg hn, alookup_dictInsert]
      by_cases hk : k = n
      · subst hk
        simp [List.mem_cons]
      · have : ¬ n ∈ k :: ks := by
          simp only [List.mem_cons]
          rintro (rfl | h)
          · exact hk rfl
          · exact hn h
        simp [hk, this]

theorem buildPackageDict_foldl_alookup (n : String) :
    ∀ (results : List Pkgbuild) (acc : Registry),
      alookup (results.foldl
        (fun packages p =>
          (p.name :: p.replaces).foldl (fun pkgs nm => dictInsert pkgs nm p) packages)
        acc) n =
      (match lastClaimant results n with
       | some q => some q
       | none => alookup acc n) := by
  intro results
  induction results with
  | nil => intro acc; simp [lastClaimant]
  | cons p rest ih =>
    intro acc
    rw [List.foldl_cons, ih]
    cases hlc : lastClaimant rest n with
    | some q => simp [lastClaimant, hlc]
    | none =>
      simp only [lastClaimant, hlc]
      rw [alookup_keysFold]
      by_cases hcl : n ∈ p.name :: p.replaces
      · simp [hcl]
      · simp [hcl]

/-- C4 (amended): after the dictionary-building loop of
`discover_packages`, the registry maps a key `n` to exactly the last
parsed recipe claiming `n` through its canonical name or a `replaces`
entry (later insertions win); in particular every recipe is reachable
under each of its name/replaces entries that no later recipe claims, and
`provides` entries are not keys at all. -/
theorem discover_packages_registry_characterisation :
    ∀ (results : List Pkgbuild) (n : String),
      alookup (buildPackageDict results) n = lastClaimant results n := by
  intro results n
  unfold buildPackageDict
  rw [buildPackageDict_foldl_alookup]
  cases lastClaimant results n <;> simp [alookup]

/-- Recipe `a` of the cycle scenario: depends on `b`. -/
def cycA : Pkgbuild := mkPkg "a" ["b"] [] []

/-- Recipe `b` of the cycle scenario: depends on `a`. -/
def cycB : Pkgbuild := mkPkg "b" ["a"] [] []

/-- C3: evidence.  On the two-recipe cycle `a → b, b → a` with both
requested, `generate_dependency_chain` does not raise a cycle error: the
first scanning pass moves `a` (because `b` depends on it) and then `b`
(because `a` depends on it) into level 1, emptying level 0, and the loop
exits returning the plan `[[a, b]]` — a single level containing the
mutually dependent recipes. -/
theorem cycle_terminates_without_cycle_error :
    generate_dependency_chain (buildPackageDict [cycA, cycB]) [cycA, cycB] 30 30 =
      .ok [[cycA, cycB]] ∧
    "b" ∈ cycA.depends ∧ "a" ∈ cycB.depends := by
  refine ⟨rfl, by decide, by decide⟩

/-! ### Claim theorems: check_package_version_built -/

/-- The recipe of C1's failing input (publishes into repo `main`). -/
def freshPkg : Pkgbuild := mkPkg "x" [] [] []

/-- C1: evidence.  `check_package_version_built` initialises one `missing`
flag before the artifact loop and clears it whenever any artifact is
found, so for a recipe whose package list names two artifacts with only
the first present locally (no download), it returns `true` although the
second artifact is missing everywhere — contradicting "return true iff
none were missing". -/
theorem check_built_true_despite_missing_artifact :
    (check_package_version_built ["x86_64", "aarch64"]
      ⟨[FPath.pkgFile "aarch64" "main" "x-1.0-1-aarch64.pkg.tar.zst"], []⟩
      freshPkg "aarch64" false (fun _ => false)
      ["x-1.0-1-aarch64.pkg.tar.zst", "y-1.0-1-aarch64.pkg.tar.zst"]).2 = true ∧
    FPath.pkgFile "aarch64" "main" "y-1.0-1-aarch64.pkg.tar.zst" ∉
      (check_package_version_built ["x86_64", "aarch64"]
        ⟨[FPath.pkgFile "aarch64" "main" "x-1.0-1-aarch64.pkg.tar.zst"], []⟩
        freshPkg "aarch64" false (fun _ => false)
        ["x-1.0-1-aarch64.pkg.tar.zst", "y-1.0-1-aarch64.pkg.tar.zst"]).1.files := by
  refine ⟨rfl, by decide⟩

/-! ### Claim theorems: get_dependants -/

/-- C5: counterexample.  `get_dependants` intersects `depends` with the
set of the requested recipes' canonical `name` fields only: for
requested `{b}` (which provides `foo`) and a registry containing
`a (deps: foo)`, the claim's `names(requested)`-based closure contains
`a`, but the code returns the empty set, and
`get_unbuilt_package_levels` with `rebuild_dependants` plans only `[[b]]`. -/
theorem get_dependants_ignores_provides :
    get_dependants (buildPackageDict [provA, provB]) 30 [provB] = .ok [] ∧
    "foo" ∈ provB.names ∧ "foo" ∈ provA.depends ∧
    get_unbuilt_package_levels (buildPackageDict [provA, provB]) [provB]
      (fun _ => false) false true 30 30 30 = .ok [[provB]] := by
  refine ⟨rfl, by decide, by decide, rfl⟩

/-- Stated from the amended claim: the k-fold iteration of the direct
dependant step, which matches `depends` entries against canonical recipe
names only. -/
def depIter (repo : Registry) : Nat → List Pkgbuild → List Pkgbuild
  | 0, pkgs => pkgs
  | k + 1, pkgs =>
    directDependants repo ((depIter repo k pkgs).map (fun p => p.name))

theorem directDependants_nil (repo : Registry) : directDependants repo [] = [] := by
  unfold directDependants
  have h : ∀ (l acc : List Pkgbuild),
      l.foldl (fun toAdd pkg =>
        if pkg.depends.any (fun d => decide (d ∈ ([] : List String)))
        then listInsert toAdd pkg else toAdd) acc = acc := by
    intro l
    induction l with
    | nil => intro acc; rfl
    | cons p ps ih =>
      intro acc
      simp only [List.foldl_cons]
      rw [show (p.depends.any (fun d => decide (d ∈ ([] : List String)))) = false by
        simp, if_neg (by simp)]
      exact ih acc
  exact h _ []

theorem depIter_shift (repo : Registry) (pkgs : List Pkgbuild) :
    ∀ k, depIter repo k (directDependants repo (pkgs.map (fun p => p.name))) =
      depIter repo (k + 1) pkgs := by
  intro k
  induction k with
  | zero => rfl
  | succ k ih =>
    show directDependants repo
        ((depIter repo k (directDependants repo (pkgs.map (fun p => p.name)))).map
          (fun p => p.name)) =
      directDependants repo ((depIter repo (k + 1) pkgs).map (fun p => p.name))
    rw [ih]

theorem depIter_empty_of_one_empty (repo : Registry) (pkgs : List Pkgbuild)
    (h : depIter repo 1 pkgs = []) : ∀ k, depIter repo (k + 1) pkgs = [] := by
  intro k
  induction k with
  | zero => exact h
  | succ k ih =>
    show directDependants repo ((depIter repo (k + 1) pkgs).map (fun p => p.name)) = []
    rw [ih]
    exact directDependants_nil repo

/-- C5 (amended): whenever `get_dependants` returns normally, the
returned set is exactly the union over `k ≥ 1` of the k-fold direct
dependant iteration, where each step keeps the registry values whose
`depends` meets the canonical names (the `name` fields only — `provides`
and `replaces` of the requested recipes are not considered) of the
previous step's set; with `rebuild_dependants`,
`get_unbuilt_package_levels` extends the requested set by exactly this
set. -/
theorem get_dependants_characterisation :
    ∀ (repo : Registry) (fuel : Nat) (pkgs s : List Pkgbuild),
      get_dependants repo fuel pkgs = .ok s →
      ∀ q, q ∈ s ↔ ∃ k, q ∈ depIter repo (k + 1) pkgs := by
  intro repo fuel
  induction fuel with
  | zero => intro pkgs s h; simp [get_dependants] at h
  | succ f ih =>
    intro pkgs s h q
    simp only [get_dependants] at h
    by_cases hte :
        (directDependants repo (pkgs.map (fun pkg => pkg.name))).isEmpty
    · rw [if_pos hte] at h
      injection h with h
      subst h
      have hnil : directDependants repo (pkgs.map (fun pkg => pkg.name)) = [] :=
        List.isEmpty_iff.1 hte
      rw [hnil]
      simp only [List.not_mem_nil, false_iff, not_exists]
      intro k hk
      rw [depIter_empty_of_one_empty repo pkgs hnil k] at hk
      exact List.not_mem_nil q hk
    · rw [if_neg hte] at h
      cases hrec : get_dependants repo f
          (directDependants repo (pkgs.map (fun pkg => pkg.name))) with
      | error e => rw [hrec] at h; exact absurd h (by simp)
      | ok more =>
        rw [hrec] at h
        injection h with h
        subst h
        rw [mem_foldl_listInsert]
        have hmore := ih _ more hrec q
        constructor
        · rintro (hq | hq)
          · exact ⟨0, hq⟩
          · obtain ⟨k, hk⟩ := hmore.1 hq
            rw [depIter_shift repo pkgs (k + 1)] at hk
            exact ⟨k + 1, hk⟩
        · rintro ⟨k, hk⟩
          cases k with
          | zero => exact Or.inl hk
          | succ k =>
            right
            exact hmore.2 ⟨k, by rw [depIter_shift repo pkgs (k + 1)]; exact hk⟩

/-- Requested recipe of the C5 witness scenario. -/
def depA : Pkgbuild := mkPkg "da" [] [] []

/-- Direct dependant of `depA` in the C5 witness scenario. -/
def depB : Pkgbuild := mkPkg "db" ["da"] [] []

/-- C5 witness: the amended characterisation applied to the concrete
registry `{da, db (deps: da)}` with requested `{da}`. -/
theorem get_dependants_characterisation_witness :
    get_dependants (buildPackageDict [depA, depB]) 5 [depA] = .ok [depB] ∧
      (depB ∈ [depB] ↔
        ∃ k, depB ∈ depIter (buildPackageDict [depA, depB]) (k + 1) [depA]) :=
  ⟨rfl, get_dependants_characterisation (buildPackageDict [depA, depB]) 5 [depA]
    [depB] rfl depB⟩

/-! ### Claim theorems: filter_packages -/

/-- C9: `filter_packages` iterates over `repo.values()`, which yields one
entry per registry key.  With the token `all` among the paths it returns
exactly the values list (one entry per key); otherwise a recipe matching
the filter occurs in the result exactly as often as it occurs among the
values, i.e. once per key (name plus each `replaces` alias) it is
registered under — so callers building each returned entry build such a
recipe once per alias. -/
theorem filter_packages_entry_per_key :
    (∀ (repo : Registry) (paths : List String) (ae up un : Bool),
      "all" ∈ paths → filter_packages repo paths ae up un = .ok (dictValues repo)) ∧
    (∀ (repo : Registry) (paths : List String) (ae : Bool) (pkg : Pkgbuild),
      "all" ∉ paths → pkg ∈ dictValues repo →
      (pkg.path ∈ paths ∨ pkg.name ∈ paths) →
      ∃ res, filter_packages repo paths ae true true = .ok res ∧
        res.count pkg = (dictValues repo).count pkg) := by
  constructor
  · intro repo paths ae up un hall
    simp [filter_packages, hall]
  · intro repo paths ae pkg hall hmem hmatch
    have hp : ((true && decide (pkg.path ∈ paths)) ||
        (true && decide (pkg.name ∈ paths))) = true := by
      rcases hmatch with h | h <;> simp [h]
    refine ⟨(dictValues repo).filter (fun p =>
      (true && decide (p.path ∈ paths)) || (true && decide (p.name ∈ paths))), ?_,
      List.count_filter hp⟩
    have hmemf : pkg ∈ (dictValues repo).filter (fun p =>
        (true && decide (p.path ∈ paths)) || (true && decide (p.name ∈ paths))) :=
      List.mem_filter.2 ⟨hmem, hp⟩
    have hne : ((dictValues repo).filter (fun p =>
        (true && decide (p.path ∈ paths)) ||
        (true && decide (p.name ∈ paths)))).isEmpty = false := by
      cases hf : ((dictValues repo).filter (fun p =>
          (true && decide (p.path ∈ paths)) ||
          (true && decide (p.name ∈ paths)))).isEmpty with
      | false => rfl
      | true =>
        rw [List.isEmpty_iff.1 hf] at hmemf
        exact absurd hmemf (List.not_mem_nil pkg)
    simp only [filter_packages]
    rw [if_neg hall, hne]
    simp

/-- A recipe registered under two keys: its name `r` and its replaces
alias `r-old`. -/
def dupPkg : Pkgbuild := mkPkg "r" [] [] ["r-old"]

/-- C9 witness: in the registry built from `dupPkg` alone, the recipe is
stored under two keys, and filtering by its path returns it twice. -/
theorem filter_packages_entry_per_key_witness :
    ("all" ∉ ["main/r"]) ∧ dupPkg ∈ dictValues (buildPackageDict [dupPkg]) ∧
    (dupPkg.path ∈ ["main/r"] ∨ dupPkg.name ∈ ["main/r"]) ∧
    (∃ res, filter_packages (buildPackageDict [dupPkg]) ["main/r"] false true true =
        .ok res ∧
      res.count dupPkg = (dictValues (buildPackageDict [dupPkg])).count dupPkg) ∧
    (dictValues (buildPackageDict [dupPkg])).count dupPkg = 2 :=
  ⟨by decide, by decide, by decide,
    filter_packages_entry_per_key.2 (buildPackageDict [dupPkg]) ["main/r"] false
      dupPkg (by decide) (by decide) (by decide), by decide⟩

/-! ### Claim theorems: any-arch fan-out of add_package_to_repo -/

theorem endsWithL_iff (s suf : List Char) :
    endsWithL s suf = true ↔ suf <:+ s := by
  unfold endsWithL
  rw [beq_iff_eq]
  constructor
  · intro h
    exact ⟨s.take (s.length - suf.length), by
      conv_rhs => rw [← List.take_append_drop (s.length - suf.length) s]
      rw [h]⟩
  · rintro ⟨pre, rfl⟩
    rw [List.length_append, Nat.add_sub_cancel, List.drop_left]

theorem pyEndsWith_of_any (f : String)
    (h : pyEndsWith f "any.pkg.tar" = true) : pyEndsWith f ".pkg.tar" = true := by
  unfold pyEndsWith at h ⊢
  rw [endsWithL_iff] at h ⊢
  exact List.IsSuffix.trans ⟨['a', 'n', 'y'], by rfl⟩ h

theorem add_file_to_repo_db_mono (st : RepoState) (fp : FPath) (rn an : String)
    (e : DbEntry) (h : e ∈ st.db) : e ∈ (add_file_to_repo st fp rn an).db :=
  mem_listInsert_of_mem _ _ _ h

theorem add_file_to_repo_db_self (st : RepoState) (fp : FPath) (rn an : String) :
    (⟨an, rn, fp.base⟩ : DbEntry) ∈ (add_file_to_repo st fp rn an).db :=
  self_mem_listInsert _ _

theorem add_file_to_repo_pkg_mem (st : RepoState) (fp : FPath) (rn an : String)
    (a r f : String) (hmem : FPath.pkgFile a r f ∈ st.files)
    (hne : FPath.pkgFile a r f ≠ fp ∨ fp = FPath.pkgFile an rn fp.base) :
    FPath.pkgFile a r f ∈ (add_file_to_repo st fp rn an).files := by
  unfold add_file_to_repo
  have hcache : FPath.pkgFile a r f ≠ FPath.cacheFile an fp.base := by
    intro h; cases h
  refine (List.mem_erase_of_ne hcache).2 ?_
  by_cases heq : fp = FPath.pkgFile an rn fp.base
  · rw [if_neg (not_not_intro heq)]
    exact hmem
  · rcases hne with hne | hne
    · by_cases htgt : fp ≠ FPath.pkgFile an rn fp.base
      · rw [if_pos htgt]
        exact mem_listInsert_of_mem _ _ _ ((List.mem_erase_of_ne hne).2 hmem)
      · exact absurd heq (by simpa using htgt)
    · exact absurd hne heq

theorem fanoutOne_files_mono (package : Pkgbuild) (arch file : String)
    (st : RepoState) (ra : String) (a r f : String)
    (h : FPath.pkgFile a r f ∈ st.files) :
    FPath.pkgFile a r f ∈ (fanoutOne package arch file st ra).files := by
  unfold fanoutOne
  by_cases hra : ra = arch
  · rw [if_pos hra]; exact h
  · rw [if_neg hra]
    exact add_file_to_repo_pkg_mem _ _ _ _ a r f
      (mem_listInsert_of_mem _ _ _ h) (Or.inr rfl)

theorem fanoutOne_db_mono (package : Pkgbuild) (arch file : String)
    (st : RepoState) (ra : String) (e : DbEntry) (h : e ∈ st.db) :
    e ∈ (fanoutOne package arch file st ra).db := by
  unfold fanoutOne
  by_cases hra : ra = arch
  · rw [if_pos hra]; exact h
  · rw [if_neg hra]
    exact add_file_to_repo_db_mono _ _ _ _ e h

theorem fanout_foldl_mono (package : Pkgbuild) (arch file : String) :
    ∀ (arches : List String) (st : RepoState) (a r f : String) (e : DbEntry),
      (FPath.pkgFile a r f ∈ st.files →
        FPath.pkgFile a r f ∈ (arches.foldl (fanoutOne package arch file) st).files) ∧
      (e ∈ st.db → e ∈ (arches.foldl (fanoutOne package arch file) st).db) := by
  intro arches
  induction arches with
  | nil => intro st a r f e; exact ⟨id, id⟩
  | cons ra rest ih =>
    intro st a r f e
    simp only [List.foldl_cons]
    refine ⟨fun h => (ih _ a r f e).1 ?_, fun h => (ih _ a r f e).2 ?_⟩
    · exact fanoutOne_files_mono package arch file st ra a r f h
    · exact fanoutOne_db_mono package arch file st ra e h

theorem fanout_establishes (package : Pkgbuild) (arch file : String) :
    ∀ (arches : List String) (st : RepoState) (arch' : String),
      arch' ∈ arches → arch' ≠ arch →
      FPath.pkgFile arch' package.repo file ∈
        (arches.foldl (fanoutOne package arch file) st).files ∧
      (⟨arch', package.repo, file⟩ : DbEntry) ∈
        (arches.foldl (fanoutOne package arch file) st).db := by
  intro arches
  induction arches with
  | nil => intro st arch' h; exact absurd h (List.not_mem_nil arch')
  | cons ra rest ih =>
    intro st arch' hmem hne
    simp only [List.foldl_cons]
    rcases List.mem_cons.1 hmem with rfl | hmem'
    · have hstep : FPath.pkgFile arch' package.repo file ∈
          (fanoutOne package arch file st arch').files ∧
          (⟨arch', package.repo, file⟩ : DbEntry) ∈
            (fanoutOne package arch file st arch').db := by
        unfold fanoutOne
        rw [if_neg hne]
        refine ⟨?_, ?_⟩
        · exact add_file_to_repo_pkg_mem _ _ _ _ arch' package.repo file
            (self_mem_listInsert _ _) (Or.inr rfl)
        · exact add_file_to_repo_db_self _ _ _ _
      exact ⟨(fanout_foldl_mono package arch file rest _ arch' package.repo file
          ⟨arch', package.repo, file⟩).1 hstep.1,
        (fanout_foldl_mono package arch file rest _ arch' package.repo file
          ⟨arch', package.repo, file⟩).2 hstep.2⟩
    · exact ih _ arch' hmem' hne

theorem publishOne_mono (arches : List String) (package : Pkgbuild) (arch : String)
    (acc : RepoState × List FPath) (file : String) (a r f : String) (e : DbEntry) :
    (FPath.pkgFile a r f ∈ acc.1.files →
      FPath.pkgFile a r f ∈ (publishOne arches package arch acc file).1.files) ∧
    (e ∈ acc.1.db → e ∈ (publishOne arches package arch acc file).1.db) := by
  simp only [publishOne]
  cases hg : pyEndsWith (strip_compression_extension file) ".pkg.tar" with
  | false =>
    exact ⟨id, id⟩
  | true =>
    cases hany : pyEndsWith (strip_compression_extension file) "any.pkg.tar" with
    | true =>
      constructor
      · intro h
        exact (fanout_foldl_mono package arch file arches _ a r f e).1
          (add_file_to_repo_pkg_mem _ _ _ _ a r f h (Or.inl (by intro hh; cases hh)))
      · intro h
        exact (fanout_foldl_mono package arch file arches _ a r f e).2
          (add_file_to_repo_db_mono _ _ _ _ e h)
    | false =>
      constructor
      · intro h
        exact add_file_to_repo_pkg_mem _ _ _ _ a r f h
          (Or.inl (by intro hh; cases hh))
      · intro h
        exact add_file_to_repo_db_mono _ _ _ _ e h

theorem add_package_foldl_mono (arches : List String) (package : Pkgbuild)
    (arch : String) :
    ∀ (listing : List String) (acc : RepoState × List FPath) (a r f : String)
      (e : DbEntry),
      (FPath.pkgFile a r f ∈ acc.1.files →
        FPath.pkgFile a r f ∈
          (listing.foldl (publishOne arches package arch) acc).1.files) ∧
      (e ∈ acc.1.db →
        e ∈ (listing.foldl (publishOne arches package arch) acc).1.db) := by
  intro listing
  induction listing with
  | nil => intro acc a r f e; exact ⟨id, id⟩
  | cons g rest ih =>
    intro acc a r f e
    simp only [List.foldl_cons]
    exact ⟨fun h => (ih _ a r f e).1
        ((publishOne_mono arches package arch acc g a r f e).1 h),
      fun h => (ih _ a r f e).2
        ((publishOne_mono arches package arch acc g a r f e).2 h)⟩

/-- C8: for every artifact file in the pkgbuild directory listing whose
stripped basename ends in `any.pkg.tar`, after `add_package_to_repo`
publishes it into the build arch's repo, the file is present under every
other configured arch's same-named repo directory and has been inserted
into that arch's repository database as well. -/
theorem add_package_to_repo_any_fanout (arches : List String) (st : RepoState)
    (package : Pkgbuild) (arch : String) (dirListing : List String)
    (file arch' : String) (hf : file ∈ dirListing)
    (hany : pyEndsWith (strip_compression_extension file) "any.pkg.tar" = true)
    (ha : arch' ∈ arches) (hne : arch' ≠ arch) :
    FPath.pkgFile arch' package.repo file ∈
      (add_package_to_repo arches st package arch dirListing).1.files ∧
    (⟨arch', package.repo, file⟩ : DbEntry) ∈
      (add_package_to_repo arches st package arch dirListing).1.db := by
  unfold add_package_to_repo
  have hptar : pyEndsWith (strip_compression_extension file) ".pkg.tar" = true :=
    pyEndsWith_of_any _ hany
  have main : ∀ (listing : List String) (acc : RepoState × List FPath),
      file ∈ listing →
      FPath.pkgFile arch' package.repo file ∈
        (listing.foldl (publishOne arches package arch) acc).1.files ∧
      (⟨arch', package.repo, file⟩ : DbEntry) ∈
        (listing.foldl (publishOne arches package arch) acc).1.db := by
    intro listing
    induction listing with
    | nil => intro acc h; exact absurd h (List.not_mem_nil file)
    | cons g rest ih =>
      intro acc hmem
      simp only [List.foldl_cons]
      rcases List.mem_cons.1 hmem with rfl | hmem'
      · have hstep : FPath.pkgFile arch' package.repo file ∈
            (publishOne arches package arch acc file).1.files ∧
            (⟨arch', package.repo, file⟩ : DbEntry) ∈
              (publishOne arches package arch acc file).1.db := by
          simp only [publishOne]
          rw [hptar, hany]
          exact fanout_establishes package arch file arches _ arch' ha hne
        exact ⟨(add_package_foldl_mono arches package arch rest _ arch'
              package.repo file ⟨arch', package.repo, file⟩).1 hstep.1,
          (add_package_foldl_mono arches package arch rest _ arch'
              package.repo file ⟨arch', package.repo, file⟩).2 hstep.2⟩
      · exact ih _ hmem'
  exact main dirListing (st, []) hf

/-- C8 witness: the fan-out theorem applied to the concrete publication
of `doc-1.0-1-any.pkg.tar.xz` for build arch `x86_64` with configured
arches `x86_64` and `aarch64`. -/
theorem add_package_to_repo_any_fanout_witness :
    ("doc-1.0-1-any.pkg.tar.xz" ∈ ["doc-1.0-1-any.pkg.tar.xz"]) ∧
    pyEndsWith (strip_compression_extension "doc-1.0-1-any.pkg.tar.xz")
      "any.pkg.tar" = true ∧
    ("aarch64" ∈ ["x86_64", "aarch64"]) ∧ "aarch64" ≠ "x86_64" ∧
    (FPath.pkgFile "aarch64" freshPkg.repo "doc-1.0-1-any.pkg.tar.xz" ∈
      (add_package_to_repo ["x86_64", "aarch64"] ⟨[], []⟩ freshPkg "x86_64"
        ["doc-1.0-1-any.pkg.tar.xz"]).1.files ∧
    (⟨"aarch64", freshPkg.repo, "doc-1.0-1-any.pkg.tar.xz"⟩ : DbEntry) ∈
      (add_package_to_repo ["x86_64", "aarch64"] ⟨[], []⟩ freshPkg "x86_64"
        ["doc-1.0-1-any.pkg.tar.xz"]).1.db) :=
  ⟨by decide, by decide, by decide, by decide,
    add_package_to_repo_any_fanout ["x86_64", "aarch64"] ⟨[], []⟩ freshPkg
      "x86_64" ["doc-1.0-1-any.pkg.tar.xz"] "doc-1.0-1-any.pkg.tar.xz" "aarch64"
      (by decide) (by decide) (by decide) (by decide)⟩

/-! ### Claim theorems: topological correctness of generate_dependency_chain

The order argument: whenever some package of a level has a dependency
name among another level-member's `names()`, the scanning pass moves the
dependency up; therefore a dependency can never end in a strictly lower
level than its dependent.  Registry resolution (`repo[d]`) implies a
`names()` match as long as every registry key is among the names of the
recipe it maps to — which holds for every registry built by
`discover_packages`, since only `name` and `replaces` entries become
keys. -/

/-- Recipe `p` depends, by name, on recipe `q`: some dependency name of
`p` occurs in `q.names()` (the relation driving the level moves). -/
def namesDep (p q : Pkgbuild) : Prop :=
  ∃ d ∈ p.depends, d ∈ q.names

/-- The ordering relation between a lower (`A`) and a higher (`B`)
pre-reversal level: no member of the higher level names-depends on a
member of the lower one. -/
def Srel (A B : List Pkgbuild) : Prop :=
  ∀ p ∈ B, ∀ q ∈ A, ¬ namesDep p q

/-- Key soundness of a registry: every key is among the names of the
recipe it maps to.  `discover_packages` only ever inserts under
`package.name` and `package.replaces`, so its registries satisfy this. -/
def registryWF (repo : Registry) : Prop :=
  ∀ e ∈ repo, e.1 ∈ e.2.names

theorem registryWF_alookup (repo : Registry) (hwf : registryWF repo)
    (k : String) (p : Pkgbuild) (h : alookup repo k = some p) : k ∈ p.names :=
  hwf (k, p) (alookup_mem repo k p h)

theorem dictInsert_wf (m : Registry) (k : String) (v : Pkgbuild)
    (hm : registryWF m) (hk : k ∈ v.names) : registryWF (dictInsert m k v) := by
  induction m with
  | nil =>
    intro e he
    simp only [dictInsert, List.mem_singleton] at he
    subst he
    exact hk
  | cons a rest ih =>
    obtain ⟨ak, av⟩ := a
    intro e he
    by_cases hak : ak = k
    · subst hak
      simp only [dictInsert, if_pos rfl] at he
      rcases List.mem_cons.1 he with rfl | he'
      · exact hk
      · exact hm e (List.mem_cons_of_mem _ he')
    · simp only [dictInsert, if_neg hak] at he
      rcases List.mem_cons.1 he with rfl | he'
      · exact hm (ak, av) (List.mem_cons_self _ _)
      · exact ih (fun e' he' => hm e' (List.mem_cons_of_mem _ he')) e he'

theorem keysFold_wf (p : Pkgbuild) :
    ∀ (keys : List String) (acc : Registry), registryWF acc →
      (∀ k ∈ keys, k ∈ p.names) →
      registryWF (keys.foldl (fun m k => dictInsert m k p) acc) := by
  intro keys
  induction keys with
  | nil => intro acc hacc _; exact hacc
  | cons k ks ih =>
    intro acc hacc hk
    simp only [List.foldl_cons]
    exact ih _ (dictInsert_wf acc k p hacc (hk k (List.mem_cons_self _ _)))
      (fun k' hk' => hk k' (List.mem_cons_of_mem _ hk'))

/-- Every registry built by the dictionary-building loop of
`discover_packages` is key-sound: only `name` and `replaces` entries are
used as keys, and all of them lie in `names()`. -/
theorem buildPackageDict_wf (results : List Pkgbuild) :
    registryWF (buildPackageDict results) := by
  unfold buildPackageDict
  have main : ∀ (rs : List Pkgbuild) (acc : Registry), registryWF acc →
      registryWF (rs.foldl
        (fun packages p =>
          (p.name :: p.replaces).foldl (fun pkgs nm => dictInsert pkgs nm p) packages)
        acc) := by
    intro rs
    induction rs with
    | nil => intro acc hacc; exact hacc
    | cons p rest ih =>
      intro acc hacc
      rw [List.foldl_cons]
      refine ih _ (keysFold_wf p _ acc hacc ?_)
      intro k hk
      rcases List.mem_cons.1 hk with rfl | hk'
      · exact List.mem_cons_self _ _
      · exact List.mem_cons_of_mem _ (List.mem_append_right _ hk')
  exact main results [] (by intro e he; exact absurd he (List.not_mem_nil e))

theorem movedCond_iff (lc : List Pkgbuild) (pkg : Pkgbuild) :
    movedCond lc pkg = true ↔
      ∃ other ∈ lc, other ≠ pkg ∧ ∃ d ∈ other.depends, d ∈ pkg.names := by
  unfold movedCond
  simp only [List.any_eq_true, Bool.and_eq_true, bne_iff_ne, ne_eq,
    decide_eq_true_eq]

theorem addDeps_nop (repo : Registry) :
    ∀ (deps : List String) (st : PassSt),
      (∀ d ∈ deps, d ∈ st.visitedNames ∨ alookup repo d = none) →
      addDeps repo deps st = st := by
  intro deps
  induction deps with
  | nil => intro st _; rfl
  | cons d ds ih =>
    intro st h
    show (d :: ds).foldl _ st = st
    rw [List.foldl_cons]
    have hstep : (if d ∈ st.visitedNames then st
        else match alookup repo d with
          | none => st
          | some dp =>
            { st with
              cur := listInsert st.cur dp,
              visited := listInsert st.visited dp,
              visitedNames := dp.names.foldl listInsert st.visitedNames,
              modified := true }) = st := by
      rcases h d (List.mem_cons_self _ _) with hv | hn
      · rw [if_pos hv]
      · by_cases hv : d ∈ st.visitedNames
        · rw [if_pos hv]
        · rw [if_neg hv, hn]
    show addDeps repo ds _ = st
    calc addDeps repo ds _ = addDeps repo ds st := by rw [hstep]
    _ = st := ih st (fun d' hd' => h d' (List.mem_cons_of_mem _ hd'))

theorem passStep_closed (repo : Registry) (lc : List Pkgbuild) (st : PassSt)
    (pkg : Pkgbuild)
    (hcl : ∀ d ∈ pkg.depends, d ∈ st.visitedNames ∨ alookup repo d = none) :
    passStep repo lc st pkg =
      if pkg ∈ st.cur then
        (if movedCond lc pkg then
          { st with
            cur := st.cur.erase pkg,
            nxt := listInsert st.nxt pkg,
            modified := true }
         else st)
      else st := by
  unfold passStep
  by_cases hc : pkg ∈ st.cur
  · rw [if_neg (not_not_intro hc), if_pos hc]
    cases hm : movedCond lc pkg with
    | true => exact addDeps_nop repo pkg.depends _ hcl
    | false => exact addDeps_nop repo pkg.depends st hcl
  · rw [if_pos hc, if_neg hc]

/-- One scanning pass, on a duplicate-free level disjoint from the next
level and with all members' dependencies already visited or unresolvable,
amounts to: the packages someone else in the level depends on move to the
next level (in level order), the rest stay, nothing else changes, and
`modified` records whether anything moved. -/
theorem runPass_spec (repo : Registry) (L nxt0 vis : List Pkgbuild)
    (vn : List String) (hnd : L.Nodup) (hdisj : ∀ x ∈ L, x ∉ nxt0)
    (hcl : ∀ pkg ∈ L, ∀ d ∈ pkg.depends, d ∈ vn ∨ alookup repo d = none) :
    runPass repo L nxt0 vis vn =
      { cur := L.filter (fun x => !(movedCond L x)),
        nxt := nxt0 ++ L.filter (fun x => movedCond L x),
        visited := vis, visitedNames := vn,
        modified := !(L.filter (fun x => movedCond L x)).isEmpty } := by
  have aux : ∀ (S P : List Pkgbuild), L = P ++ S →
      S.foldl (passStep repo L)
        { cur := L.filter (fun x => !(movedCond L x) || decide (x ∈ S)),
          nxt := nxt0 ++ P.filter (fun x => movedCond L x),
          visited := vis, visitedNames := vn,
          modified := !(P.filter (fun x => movedCond L x)).isEmpty } =
      { cur := L.filter (fun x => !(movedCond L x)),
        nxt := nxt0 ++ L.filter (fun x => movedCond L x),
        visited := vis, visitedNames := vn,
        modified := !(L.filter (fun x => movedCond L x)).isEmpty } := by
    intro S
    induction S with
    | nil =>
      intro P hP
      rw [List.append_nil] at hP
      subst hP
      simp only [List.foldl_nil]
      have hcur : (fun x => !(movedCond L x) || decide (x ∈ ([] : List Pkgbuild))) =
          (fun x => !(movedCond L x)) := by
        funext x
        simp
      rw [hcur]
    | cons s S' ih =>
      intro P hP
      have hsL : s ∈ L := by
        rw [hP]
        exact List.mem_append_right _ (List.mem_cons_self _ _)
      have hndPS : (P ++ s :: S').Nodup := hP ▸ hnd
      have hsS' : s ∉ S' := by
        have := (List.Nodup.of_append_right hndPS)
        exact (List.nodup_cons.1 this).1
      have hsP : s ∉ P := by
        intro hmem
        exact (List.disjoint_of_nodup_append hndPS) hmem (List.mem_cons_self _ _)
      have hP' : L = (P ++ [s]) ++ S' := by
        rw [hP, List.append_assoc]
        rfl
      rw [List.foldl_cons]
      have hsc : s ∈ L.filter
          (fun x => !(movedCond L x) || decide (x ∈ s :: S')) := by
        refine List.mem_filter.2 ⟨hsL, ?_⟩
        have : decide (s ∈ s :: S') = true := by
          simp
        rw [this, Bool.or_true]
      rw [passStep_closed repo L _ s (hcl s hsL), if_pos hsc]
      cases hm : movedCond L s with
      | true =>
        rw [if_pos rfl]
        have hstate : PassSt.mk
            ((L.filter (fun x => !(movedCond L x) || decide (x ∈ s :: S'))).erase s)
            (listInsert (nxt0 ++ P.filter (fun x => movedCond L x)) s)
            vis vn true =
          PassSt.mk
            (L.filter (fun x => !(movedCond L x) || decide (x ∈ S')))
            (nxt0 ++ (P ++ [s]).filter (fun x => movedCond L x))
            vis vn
            (!((P ++ [s]).filter (fun x => movedCond L x)).isEmpty) := by
          have hfilterPs : (P ++ [s]).filter (fun x => movedCond L x) =
              P.filter (fun x => movedCond L x) ++ [s] := by
            rw [List.filter_append]
            congr 1
            show List.filter _ [s] = [s]
            rw [List.filter_cons]
            rw [hm]
            rfl
          simp only [PassSt.mk.injEq]
          refine ⟨?_, ?_, trivial, trivial, ?_⟩
          · have hndf : (L.filter
                (fun x => !(movedCond L x) || decide (x ∈ s :: S'))).Nodup :=
              hnd.filter _
            rw [hndf.erase_eq_filter s, List.filter_filter]
            refine List.filter_congr ?_
            intro x hx
            by_cases hxs : x = s
            · subst hxs
              have h1 : (x != x) = false := by simp
              have h2 : decide (x ∈ S') = false := by
                simp [hsS']
              rw [h1, Bool.false_and, hm, h2]
              rfl
            · have h1 : (x != s) = true := by simp [hxs]
              have h2 : decide (x ∈ s :: S') = decide (x ∈ S') := by
                simp [List.mem_cons, hxs]
              rw [h1, Bool.true_and, h2]
          · have hns : s ∉ nxt0 ++ P.filter (fun x => movedCond L x) := by
              intro hmem
              rcases List.mem_append.1 hmem with h | h
              · exact hdisj s hsL h
              · exact hsP (List.mem_filter.1 h).1
            unfold listInsert
            rw [if_neg hns, hfilterPs, List.append_assoc]
          · rw [hfilterPs]
            have : (P.filter (fun x => movedCond L x) ++ [s]).isEmpty = false := by
              cases hfp : P.filter (fun x => movedCond L x) with
              | nil => rfl
              | cons a as => rfl
            rw [this]
            rfl
        rw [hstate]
        exact ih (P ++ [s]) hP'
      | false =>
        rw [if_neg Bool.false_ne_true]
        have hstate : PassSt.mk
            (L.filter (fun x => !(movedCond L x) || decide (x ∈ s :: S')))
            (nxt0 ++ P.filter (fun x => movedCond L x))
            vis vn
            (!(P.filter (fun x => movedCond L x)).isEmpty) =
          PassSt.mk
            (L.filter (fun x => !(movedCond L x) || decide (x ∈ S')))
            (nxt0 ++ (P ++ [s]).filter (fun x => movedCond L x))
            vis vn
            (!((P ++ [s]).filter (fun x => movedCond L x)).isEmpty) := by
          have hfilterPs : (P ++ [s]).filter (fun x => movedCond L x) =
              P.filter (fun x => movedCond L x) := by
            rw [List.filter_append]
            have : List.filter (fun x => movedCond L x) [s] = [] := by
              rw [List.filter_cons, hm]
              rfl
            rw [this, List.append_nil]
          simp only [PassSt.mk.injEq]
          refine ⟨?_, by rw [hfilterPs], trivial, trivial, by rw [hfilterPs]⟩
          refine List.filter_congr ?_
          intro x hx
          by_cases hxs : x = s
          · subst hxs
            rw [hm]
            rfl
          · have h2 : decide (x ∈ s :: S') = decide (x ∈ S') := by
              simp [List.mem_cons, hxs]
            rw [h2]
        rw [hstate]
        exact ih (P ++ [s]) hP'
  have hstart : PassSt.mk L nxt0 vis vn false =
      PassSt.mk
        (L.filter (fun x => !(movedCond L x) || decide (x ∈ L)))
        (nxt0 ++ ([] : List Pkgbuild).filter (fun x => movedCond L x))
        vis vn
        (!(([] : List Pkgbuild).filter (fun x => movedCond L x)).isEmpty) := by
    simp only [PassSt.mk.injEq]
    refine ⟨?_, by rw [List.filter_nil, List.append_nil], trivial, trivial, rfl⟩
    refine (List.filter_eq_self.2 ?_).symm
    intro x hx
    have : decide (x ∈ L) = true := by simp [hx]
    rw [this, Bool.or_true]
  show L.foldl (passStep repo L) _ = _
  rw [hstart]
  exact aux L [] rfl

/-- The invariant of the scanning loop, over the level list
`below ++ [cur, nxt]` (which is `dep_levels`) and the visited-names set:
levels are ordered by `Srel` (no later-level member names-depends on an
earlier-level member), duplicate-free and pairwise disjoint, and every
member's dependencies are visited or unresolvable. -/
structure LoopInvP (repo : Registry) (below : List (List Pkgbuild))
    (cur nxt : List Pkgbuild) (vn : List String) : Prop where
  ord : (below ++ [cur, nxt]).Pairwise Srel
  nodups : ∀ lvl ∈ below ++ [cur, nxt], lvl.Nodup
  disj : (below ++ [cur, nxt]).Pairwise (fun A B => ∀ x ∈ A, x ∉ B)
  closed : ∀ lvl ∈ below ++ [cur, nxt], ∀ pkg ∈ lvl, ∀ d ∈ pkg.depends,
    d ∈ vn ∨ alookup repo d = none

theorem pairwise_levels_iff (R : List Pkgbuild → List Pkgbuild → Prop)
    (below : List (List Pkgbuild)) (cur nxt : List Pkgbuild) :
    (below ++ [cur, nxt]).Pairwise R ↔
      below.Pairwise R ∧ (∀ A ∈ below, R A cur) ∧ (∀ A ∈ below, R A nxt) ∧
        R cur nxt := by
  rw [List.pairwise_append]
  constructor
  · rintro ⟨pb, p2, hx⟩
    refine ⟨pb, fun A hA => hx A hA cur (List.mem_cons_self _ _),
      fun A hA => hx A hA nxt (List.mem_cons_of_mem _ (List.mem_cons_self _ _)),
      ?_⟩
    exact (List.pairwise_cons.1 p2).1 nxt (List.mem_cons_self _ _)
  · rintro ⟨pb, hc, hn, hcn⟩
    refine ⟨pb, ?_, ?_⟩
    · refine List.pairwise_cons.2 ⟨?_, List.pairwise_cons.2
        ⟨fun B hB => absurd hB (List.not_mem_nil B), List.Pairwise.nil⟩⟩
      intro B hB
      rcases List.mem_cons.1 hB with rfl | hB'
      · exact hcn
      · exact absurd hB' (List.not_mem_nil B)
    · intro A hA B hB
      rcases List.mem_cons.1 hB with rfl | hB'
      · exact hc A hA
      · rcases List.mem_cons.1 hB' with rfl | hB''
        · exact hn A hA
        · exact absurd hB'' (List.not_mem_nil B)

theorem mem_levels_cur (below : List (List Pkgbuild)) (cur nxt : List Pkgbuild) :
    cur ∈ below ++ [cur, nxt] :=
  List.mem_append_right _ (List.mem_cons_self _ _)

theorem mem_levels_nxt (below : List (List Pkgbuild)) (cur nxt : List Pkgbuild) :
    nxt ∈ below ++ [cur, nxt] :=
  List.mem_append_right _ (List.mem_cons_of_mem _ (List.mem_cons_self _ _))

/-- A scanning pass preserves the loop invariant: the remaining level is
a sub-collection of the old current level, and everything moved to the
next level came from the current one; movement protects the `Srel` order
between the two because a still-present dependency of a moved package
would itself satisfy the move condition. -/
theorem loopInvP_after_pass (repo : Registry) (below : List (List Pkgbuild))
    (cur nxt : List Pkgbuild) (vn : List String)
    (inv : LoopInvP repo below cur nxt vn) :
    LoopInvP repo below (cur.filter (fun x => !(movedCond cur x)))
      (nxt ++ cur.filter (fun x => movedCond cur x)) vn := by
  obtain ⟨pbo, hco, hno, hcno⟩ := (pairwise_levels_iff Srel below cur nxt).1 inv.ord
  obtain ⟨pbd, hcd, hnd', hcnd⟩ :=
    (pairwise_levels_iff _ below cur nxt).1 inv.disj
  have hsubC : ∀ x ∈ cur.filter (fun x => !(movedCond cur x)), x ∈ cur :=
    fun x hx => (List.mem_filter.1 hx).1
  have hsubM : ∀ x ∈ cur.filter (fun x => movedCond cur x), x ∈ cur :=
    fun x hx => (List.mem_filter.1 hx).1
  refine ⟨?_, ?_, ?_, ?_⟩
  · refine (pairwise_levels_iff Srel below _ _).2 ⟨pbo, ?_, ?_, ?_⟩
    · exact fun A hA p hp q hq => hco A hA p (hsubC p hp) q hq
    · intro A hA p hp q hq
      rcases List.mem_append.1 hp with hp' | hp'
      · exact hno A hA p hp' q hq
      · exact hco A hA p (hsubM p hp') q hq
    · intro p hp q hq hdep
      obtain ⟨hqc, hqb⟩ := List.mem_filter.1 hq
      have hqm : movedCond cur q = false := by
        cases hq2 : movedCond cur q
        · rfl
        · rw [hq2] at hqb; exact absurd hqb (by decide)
      rcases List.mem_append.1 hp with hp' | hp'
      · exact hcno p hp' q hqc hdep
      · obtain ⟨hpc, hpb⟩ := List.mem_filter.1 hp'
        have hpq : p ≠ q := by
          intro he
          subst he
          rw [hpb] at hqm
          exact absurd hqm (by decide)
        have : movedCond cur q = true :=
          (movedCond_iff cur q).2 ⟨p, hpc, hpq, hdep⟩
        rw [this] at hqm
        exact absurd hqm (by decide)
  · intro lvl hlvl
    rcases List.mem_append.1 hlvl with hb | hcn
    · exact inv.nodups lvl (List.mem_append_left _ hb)
    · rcases List.mem_cons.1 hcn with rfl | hcn'
      · exact (inv.nodups cur (mem_levels_cur below cur nxt)).filter _
      · rcases List.mem_cons.1 hcn' with rfl | hcn''
        · refine List.nodup_append.2
            ⟨inv.nodups nxt (mem_levels_nxt below cur nxt),
             (inv.nodups cur (mem_levels_cur below cur nxt)).filter _, ?_⟩
          intro a ha ha'
          exact hcnd a (hsubM a ha') ha
        · exact absurd hcn'' (List.not_mem_nil lvl)
  · refine (pairwise_levels_iff _ below _ _).2 ⟨pbd, ?_, ?_, ?_⟩
    · exact fun A hA x hx hx' => hcd A hA x hx (hsubC x hx')
    · intro A hA x hx hx'
      rcases List.mem_append.1 hx' with h' | h'
      · exact hnd' A hA x hx h'
      · exact hcd A hA x hx (hsubM x h')
    · intro x hx hx'
      obtain ⟨hxc, hxb⟩ := List.mem_filter.1 hx
      rcases List.mem_append.1 hx' with h' | h'
      · exact hcnd x hxc h'
      · obtain ⟨_, hxb'⟩ := List.mem_filter.1 h'
        rw [hxb'] at hxb
        exact absurd hxb (by decide)
  · intro lvl hlvl pkg hpkg
    rcases List.mem_append.1 hlvl with hb | hcn
    · exact inv.closed lvl (List.mem_append_left _ hb) pkg hpkg
    · rcases List.mem_cons.1 hcn with rfl | hcn'
      · exact inv.closed cur (mem_levels_cur below cur nxt) pkg (hsubC pkg hpkg)
      · rcases List.mem_cons.1 hcn' with rfl | hcn''
        · rcases List.mem_append.1 hpkg with h' | h'
          · exact inv.closed nxt (mem_levels_nxt below cur nxt) pkg h'
          · exact inv.closed cur (mem_levels_cur below cur nxt) pkg (hsubM pkg h')
        · exact absurd hcn'' (List.not_mem_nil lvl)

/-- Advancing to the next level (appending a fresh empty level) preserves
the loop invariant. -/
theorem loopInvP_advance (repo : Registry) (below : List (List Pkgbuild))
    (cur nxt : List Pkgbuild) (vn : List String)
    (inv : LoopInvP repo below cur nxt vn) :
    LoopInvP repo (below ++ [cur]) nxt [] vn := by
  have hlev : (below ++ [cur]) ++ [nxt, []] = (below ++ [cur, nxt]) ++ [[]] := by
    simp
  refine ⟨?_, ?_, ?_, ?_⟩
  · rw [hlev]
    refine List.pairwise_append.2 ⟨inv.ord,
      List.pairwise_cons.2 ⟨fun B hB => absurd hB (List.not_mem_nil B),
        List.Pairwise.nil⟩, ?_⟩
    intro A _ B hB
    rcases List.mem_cons.1 hB with rfl | hB'
    · exact fun p hp => absurd hp (List.not_mem_nil p)
    · exact absurd hB' (List.not_mem_nil B)
  · rw [hlev]
    intro lvl hlvl
    rcases List.mem_append.1 hlvl with h | h
    · exact inv.nodups lvl h
    · rcases List.mem_cons.1 h with rfl | h'
      · exact List.nodup_nil
      · exact absurd h' (List.not_mem_nil lvl)
  · rw [hlev]
    refine List.pairwise_append.2 ⟨inv.disj,
      List.pairwise_cons.2 ⟨fun B hB => absurd hB (List.not_mem_nil B),
        List.Pairwise.nil⟩, ?_⟩
    intro A _ B hB
    rcases List.mem_cons.1 hB with rfl | hB'
    · exact fun x _ hx' => absurd hx' (List.not_mem_nil x)
    · exact absurd hB' (List.not_mem_nil B)
  · rw [hlev]
    intro lvl hlvl
    rcases List.mem_append.1 hlvl with h | h
    · exact inv.closed lvl h
    · rcases List.mem_cons.1 h with rfl | h'
      · exact fun pkg hpkg => absurd hpkg (List.not_mem_nil pkg)
      · exact absurd h' (List.not_mem_nil lvl)

/-- On exit, the reversed and pruned level list is pairwise ordered: no
earlier (deeper) level member names-depends on a later level member. -/
theorem loopInvP_result (repo : Registry) (below : List (List Pkgbuild))
    (cur nxt : List Pkgbuild) (vn : List String)
    (inv : LoopInvP repo below cur nxt vn) :
    (((below ++ [cur, nxt]).reverse).filter (fun lvl => !lvl.isEmpty)).Pairwise
      (fun A B => ∀ p ∈ A, ∀ q ∈ B, ¬ namesDep p q) := by
  have h1 : ((below ++ [cur, nxt]).reverse).Pairwise
      (fun A B => ∀ p ∈ A, ∀ q ∈ B, ¬ namesDep p q) := by
    rw [List.pairwise_reverse]
    exact inv.ord
  exact h1.sublist (List.filter_sublist _)

/-- One loop iteration preserves the invariant. -/
theorem chainIter_inv (repo : Registry) (st : LoopSt)
    (inv : LoopInvP repo st.below st.cur st.nxt st.visitedNames) :
    ∀ st', chainIter repo st = .ok st' →
      LoopInvP repo st'.below st'.cur st'.nxt st'.visitedNames := by
  intro st' h
  have hnd : st.cur.Nodup := inv.nodups st.cur (mem_levels_cur _ _ _)
  have hdj : ∀ x ∈ st.cur, x ∉ st.nxt := by
    obtain ⟨_, _, _, hcn⟩ :=
      (pairwise_levels_iff _ st.below st.cur st.nxt).1 inv.disj
    exact hcn
  have hcl : ∀ pkg ∈ st.cur, ∀ d ∈ pkg.depends,
      d ∈ st.visitedNames ∨ alookup repo d = none :=
    inv.closed st.cur (mem_levels_cur _ _ _)
  have hp := runPass_spec repo st.cur st.nxt st.visited st.visitedNames hnd hdj hcl
  unfold chainIter at h
  rw [hp] at h
  dsimp only at h
  split at h
  · exact Except.noConfusion h
  · split at h
    · injection h with h2
      subst h2
      exact loopInvP_after_pass repo st.below st.cur st.nxt st.visitedNames inv
    · injection h with h2
      subst h2
      exact loopInvP_advance repo st.below _ _ st.visitedNames
        (loopInvP_after_pass repo st.below st.cur st.nxt st.visitedNames inv)

/-- Any plan returned by the scanning loop from an invariant-satisfying
state is pairwise ordered: no member of an earlier (deeper) result level
names-depends on a member of a later one. -/
theorem chainLoop_topo (repo : Registry) :
    ∀ (fuel : Nat) (st : LoopSt),
      LoopInvP repo st.below st.cur st.nxt st.visitedNames →
      ∀ levels, chainLoop repo fuel st = .ok levels →
        levels.Pairwise (fun A B => ∀ p ∈ A, ∀ q ∈ B, ¬ namesDep p q) := by
  intro fuel
  induction fuel with
  | zero =>
    intro st _ levels h
    exact Except.noConfusion h
  | succ f ih =>
    intro st inv levels h
    unfold chainLoop at h
    split at h
    · injection h with h2
      subst h2
      exact loopInvP_result repo st.below st.cur st.nxt st.visitedNames inv
    · split at h
      · exact Except.noConfusion h
      · split at h
        · exact Except.noConfusion h
        · rename_i st' hiter
          exact ih st' (chainIter_inv repo st inv st' hiter) levels h

theorem visitMark_names_mono (p : Pkgbuild) (st : VisitSt) (x : String)
    (h : x ∈ st.visitedNames) : x ∈ (visitMark p st).visitedNames :=
  (mem_foldl_listInsert p.names st.visitedNames x).2 (Or.inl h)

theorem visitMark_names_self (p : Pkgbuild) (st : VisitSt) (x : String)
    (h : x ∈ p.names) : x ∈ (visitMark p st).visitedNames :=
  (mem_foldl_listInsert p.names st.visitedNames x).2 (Or.inr h)

/-- Specification of the depth-first traversal: visited names and level-0
membership grow monotonically, level 0 stays duplicate-free, every listed
dependency name ends visited or unresolvable (using key soundness), and
every newly added package has all its dependencies visited or
unresolvable. -/
theorem visitDeps_spec (repo : Registry) (hwf : registryWF repo) :
    ∀ (fuel : Nat) (ds : List String) (st st' : VisitSt),
      visitDeps repo fuel ds st = .ok st' →
      (∀ x ∈ st.visitedNames, x ∈ st'.visitedNames) ∧
      (∀ x ∈ st.level0, x ∈ st'.level0) ∧
      (st.level0.Nodup → st'.level0.Nodup) ∧
      (∀ d ∈ ds, d ∈ st'.visitedNames ∨ alookup repo d = none) ∧
      (∀ pkg ∈ st'.level0, pkg ∈ st.level0 ∨
        ∀ d ∈ pkg.depends, d ∈ st'.visitedNames ∨ alookup repo d = none) := by
  intro fuel
  induction fuel with
  | zero => intro ds st st' h; exact Except.noConfusion h
  | succ f ih =>
    intro ds st st' h
    cases ds with
    | nil =>
      injection h with h2
      subst h2
      exact ⟨fun x hx => hx, fun x hx => hx, id,
        fun d hd => absurd hd (List.not_mem_nil d), fun pkg hp => Or.inl hp⟩
    | cons d ds =>
      unfold visitDeps at h
      by_cases hv : d ∈ st.visitedNames
      · rw [if_pos hv] at h
        obtain ⟨m1, m2, m3, m4, m5⟩ := ih ds st st' h
        refine ⟨m1, m2, m3, ?_, m5⟩
        intro d' hd'
        rcases List.mem_cons.1 hd' with rfl | hd''
        · exact Or.inl (m1 d' hv)
        · exact m4 d' hd''
      · rw [if_neg hv] at h
        cases hl : alookup repo d with
        | none =>
          rw [hl] at h
          obtain ⟨m1, m2, m3, m4, m5⟩ := ih ds st st' h
          refine ⟨m1, m2, m3, ?_, m5⟩
          intro d' hd'
          rcases List.mem_cons.1 hd' with rfl | hd''
          · exact Or.inr hl
          · exact m4 d' hd''
        | some q =>
          rw [hl] at h
          dsimp only at h
          split at h
          · exact Except.noConfusion h
          · rename_i st3 hin
            obtain ⟨a1, a2, a3, a4, a5⟩ := ih q.depends _ st3 hin
            obtain ⟨b1, b2, b3, b4, b5⟩ := ih ds st3 st' h
            refine ⟨?_, ?_, ?_, ?_, ?_⟩
            · exact fun x hx => b1 x (a1 x (visitMark_names_mono q st x hx))
            · exact fun x hx => b2 x (a2 x (mem_listInsert_of_mem _ x q hx))
            · exact fun hnd => b3 (a3 (listInsert_nodup _ q hnd))
            · intro d' hd'
              rcases List.mem_cons.1 hd' with rfl | hd''
              · exact Or.inl (b1 d' (a1 d'
                  (visitMark_names_self q st d' (registryWF_alookup repo hwf d' q hl))))
              · exact b4 d' hd''
            · intro pkg hp
              rcases b5 pkg hp with hp3 | hcl
              · rcases a5 pkg hp3 with hp2 | hcl3
                · rcases (mem_listInsert st.level0 pkg q).1 hp2 with hp0 | rfl
                  · exact Or.inl hp0
                  · refine Or.inr ?_
                    intro d' hd'
                    rcases a4 d' hd' with hn | hn
                    · exact Or.inl (b1 d' hn)
                    · exact Or.inr hn
                · refine Or.inr ?_
                  intro d' hd'
                  rcases hcl3 d' hd' with hn | hn
                  · exact Or.inl (b1 d' hn)
                  · exact Or.inr hn
              · exact Or.inr hcl

/-- Specification of the initialisation loop of
`generate_dependency_chain`: level 0 stays duplicate-free and all its
members end with their dependencies visited or unresolvable. -/
theorem initPhase_spec (repo : Registry) (hwf : registryWF repo) (fuel : Nat) :
    ∀ (ps : List Pkgbuild) (st st' : VisitSt),
      initPhase repo fuel ps st = .ok st' →
      (∀ x ∈ st.visitedNames, x ∈ st'.visitedNames) ∧
      (∀ x ∈ st.level0, x ∈ st'.level0) ∧
      (st.level0.Nodup → st'.level0.Nodup) ∧
      (∀ pkg ∈ st'.level0, pkg ∈ st.level0 ∨
        ∀ d ∈ pkg.depends, d ∈ st'.visitedNames ∨ alookup repo d = none) := by
  intro ps
  induction ps with
  | nil =>
    intro st st' h
    injection h with h2
    subst h2
    exact ⟨fun x hx => hx, fun x hx => hx, id, fun pkg hp => Or.inl hp⟩
  | cons p ps ih =>
    intro st st' h
    unfold initPhase at h
    split at h
    · exact Except.noConfusion h
    · rename_i st3 hin
      obtain ⟨a1, a2, a3, a4, a5⟩ := visitDeps_spec repo hwf fuel p.depends _ st3 hin
      obtain ⟨b1, b2, b3, b4⟩ := ih st3 st' h
      refine ⟨?_, ?_, ?_, ?_⟩
      · exact fun x hx => b1 x (a1 x (visitMark_names_mono p st x hx))
      · exact fun x hx => b2 x (a2 x (mem_listInsert_of_mem _ x p hx))
      · exact fun hnd => b3 (a3 (listInsert_nodup _ p hnd))
      · intro pkg hp
        rcases b4 pkg hp with hp3 | hcl
        · rcases a5 pkg hp3 with hp2 | hcl3
          · rcases (mem_listInsert st.level0 pkg p).1 hp2 with hp0 | rfl
            · exact Or.inl hp0
            · refine Or.inr ?_
              intro d' hd'
              rcases a4 d' hd' with hn | hn
              · exact Or.inl (b1 d' hn)
              · exact Or.inr hn
          · refine Or.inr ?_
            intro d' hd'
            rcases hcl3 d' hd' with hn | hn
            · exact Or.inl (b1 d' hn)
            · exact Or.inr hn
        · exact Or.inr hcl

/-- Recipe `a` of scenario S1: depends on `b`. -/
def s1a : Pkgbuild := mkPkg "a" ["b"] [] []

/-- Recipe `b` of scenario S1: depends on `c`. -/
def s1b : Pkgbuild := mkPkg "b" ["c"] [] []

/-- Recipe `c` of scenario S1: no dependencies. -/
def s1c : Pkgbuild := mkPkg "c" [] [] []

/-- C2: for every key-sound registry (in particular every registry built
by `discover_packages`, see `buildPackageDict_wf`) and every requested
set on which `generate_dependency_chain` terminates normally, the
returned plan is topologically correct: for `i < j`, no recipe of level
`i` has a dependency resolvable in the registry to a recipe of level `j`;
and on S1 — registry `{a (deps: b), b (deps: c), c}`, requested `{a}` —
the result is exactly `[[c], [b], [a]]`. -/
theorem generate_dependency_chain_topological :
    (∀ (repo : Registry) (to_build : List Pkgbuild) (dfsFuel loopFuel : Nat)
      (levels : List (List Pkgbuild)),
      registryWF repo →
      generate_dependency_chain repo to_build dfsFuel loopFuel = .ok levels →
      ∀ i j, i < j → ∀ A B, levels.get? i = some A → levels.get? j = some B →
        ∀ p ∈ A, ∀ d ∈ p.depends, ∀ q, alookup repo d = some q → q ∉ B) ∧
    generate_dependency_chain (buildPackageDict [s1a, s1b, s1c]) [s1a] 30 30 =
      .ok [[s1c], [s1b], [s1a]] := by
  constructor
  · intro repo to_build dfsFuel loopFuel levels hwf h
    unfold generate_dependency_chain at h
    cases hin : initPhase repo dfsFuel to_build ⟨[], [], []⟩ with
    | error e => rw [hin] at h; exact Except.noConfusion h
    | ok stInit =>
      rw [hin] at h
      obtain ⟨_, _, a3, a4⟩ := initPhase_spec repo hwf dfsFuel to_build _ stInit hin
      have hndL : stInit.level0.Nodup := a3 List.nodup_nil
      have hclosed : ∀ pkg ∈ stInit.level0, ∀ d ∈ pkg.depends,
          d ∈ stInit.visitedNames ∨ alookup repo d = none := by
        intro pkg hp
        rcases a4 pkg hp with hp0 | hcl
        · exact absurd hp0 (List.not_mem_nil pkg)
        · exact hcl
      have inv : LoopInvP repo [] stInit.level0 [] stInit.visitedNames := by
        refine ⟨?_, ?_, ?_, ?_⟩
        · refine List.pairwise_cons.2 ⟨?_, List.pairwise_cons.2
            ⟨fun B hB => absurd hB (List.not_mem_nil B), List.Pairwise.nil⟩⟩
          intro B hB
          rcases List.mem_cons.1 hB with rfl | hB'
          · exact fun p hp => absurd hp (List.not_mem_nil p)
          · exact absurd hB' (List.not_mem_nil B)
        · intro lvl hlvl
          rcases List.mem_cons.1 hlvl with rfl | h'
          · exact hndL
          · rcases List.mem_cons.1 h' with rfl | h''
            · exact List.nodup_nil
            · exact absurd h'' (List.not_mem_nil lvl)
        · refine List.pairwise_cons.2 ⟨?_, List.pairwise_cons.2
            ⟨fun B hB => absurd hB (List.not_mem_nil B), List.Pairwise.nil⟩⟩
          intro B hB
          rcases List.mem_cons.1 hB with rfl | hB'
          · exact fun x _ hx' => absurd hx' (List.not_mem_nil x)
          · exact absurd hB' (List.not_mem_nil B)
        · intro lvl hlvl
          rcases List.mem_cons.1 hlvl with rfl | h'
          · exact hclosed
          · rcases List.mem_cons.1 h' with rfl | h''
            · exact fun pkg hp => absurd hp (List.not_mem_nil pkg)
            · exact absurd h'' (List.not_mem_nil lvl)
      have hpair := chainLoop_topo repo loopFuel
        ⟨[], stInit.level0, [], stInit.visited, stInit.visitedNames, none, 0⟩
        inv levels h
      intro i j hij A B hA hB p hp d hd q hq hqB
      obtain ⟨hi, hAeq⟩ := List.get?_eq_some.1 hA
      obtain ⟨hj, hBeq⟩ := List.get?_eq_some.1 hB
      have hT := List.pairwise_iff_get.1 hpair ⟨i, hi⟩ ⟨j, hj⟩ (Fin.mk_lt_mk.2 hij)
      rw [hAeq, hBeq] at hT
      exact hT p hp q hqB ⟨d, hd, registryWF_alookup repo hwf d q hq⟩
  · rfl

/-- C2 witness: the topological statement applied to scenario S1, where
`b ∈ L₁` depends on `c`, resolvable to `c ∈ L₀`, so `c` must not (and
does not) occur in the later level `L₂ = [a]`. -/
theorem generate_dependency_chain_topological_witness :
    registryWF (buildPackageDict [s1a, s1b, s1c]) ∧ s1c ∉ [s1a] :=
  ⟨buildPackageDict_wf [s1a, s1b, s1c],
    generate_dependency_chain_topological.1 (buildPackageDict [s1a, s1b, s1c])
      [s1a] 30 30 [[s1c], [s1b], [s1a]] (buildPackageDict_wf [s1a, s1b, s1c])
      rfl 1 2 (by decide) [s1b] [s1a] rfl rfl s1b (by decide) "c" (by decide)
      s1c rfl⟩

end Kupfer
